import Mathlib

/-!
# still-canvas: a verification development

Shallow embedding of the core of the `still-canvas` image-painting pipeline
(`js/imageAnalyzer.js` and `js/paintEngine.js`) and proofs about it.

Conventions of the embedding:

* Machine numbers that the source manipulates exactly (pixel coordinates,
  sizes, indices) are `Nat`/`Int`; quantities the source computes with
  JavaScript doubles but that are exactly representable as rationals
  (brightness, speeds, thresholds such as `0.299`, `1.5`, `16.67`) are `ℚ`.
* `Math.random()` and the floating-point brush-shape test (which involves
  `sin`, `cos`, `sqrt` of a random angle) are modelled as explicit oracle
  parameters; every theorem quantifies over the oracle, and concrete runs
  instantiate it.  `Math.sqrt` inside distance computations is likewise an
  abstract function parameter `sqrtQ`, since no claim depends on its value.
* Pixel buffers (`ImageData`) are total functions from (x, y) pairs to RGBA
  values; the source's flat index `(y*width + x)*4` is in bijection with the
  pairs for all in-bounds accesses, and out-of-bounds typed-array writes are
  dropped, which the embedding mirrors with an explicit range guard.
-/

/-- One RGBA pixel (each channel 0..255 in the source; `Nat` here). -/
structure RGBA where
  r : Nat
  g : Nat
  b : Nat
  a : Nat
deriving DecidableEq

/-- The fully transparent pixel, the initial content of a fresh `ImageData`. -/
def RGBA.clear : RGBA := ⟨0, 0, 0, 0⟩

/-- Luminance formula used throughout the source: `0.299*r + 0.587*g + 0.114*b`. -/
def lum (p : RGBA) : ℚ := 0.299 * p.r + 0.587 * p.g + 0.114 * p.b

/-- A decoded raster image: dimensions plus an RGBA buffer, indexed by (x, y). -/
structure Img where
  width : Nat
  height : Nat
  data : Nat × Nat → RGBA

/-- A fragment as produced by the analyzer: a bounding box, a mean
brightness, and a locally owned RGBA buffer indexed by (dx, dy) offsets
inside the bounding box. -/
structure Fragment where
  x : Nat
  y : Nat
  width : Nat
  height : Nat
  brightness : ℚ
  imageData : Nat × Nat → RGBA

/-- Placeholder fragment used only to totalize list indexing at places the
source could never reach (it would fault there). -/
def dFrag : Fragment := ⟨0, 0, 0, 0, 0, fun _ => RGBA.clear⟩

/-- Does fragment `f` cover image pixel (px, py)?  Membership of a pixel in a
fragment is operational throughout the source: the pixel lies in the bounding
box and the local buffer is non-transparent at the corresponding offset
(both the merger and the renderer test exactly `alpha > 0`). -/
def Fragment.covers (f : Fragment) (px py : Nat) : Bool :=
  decide (f.x ≤ px) && decide (px < f.x + f.width) &&
  decide (f.y ≤ py) && decide (py < f.y + f.height) &&
  decide ((f.imageData (px - f.x, py - f.y)).a ≠ 0)

/-- Does at least one fragment of the set cover pixel (px, py)? -/
def coversPix (frags : List Fragment) (px py : Nat) : Bool :=
  frags.any (·.covers px py)

/-! ## Region Generator (`imageAnalyzer.js`, `createOrganicFragments`)

Derived constants, lines 88-101 of `imageAnalyzer.js`.  All four are exact:
`avgFragmentSize = totalPixels / 500` and
`minSize = max(50, ⌊avg·0.8⌋) = max(50, totalPixels/625)`,
`maxSize = ⌊avg·1.2⌋ = 6·totalPixels/2500` (`Nat` division is the floor), and
`step = max(15, ⌊√avg · 0.9⌋) = max(15, ⌊√(0.81·avg)⌋)
      = max(15, Nat.sqrt (81·totalPixels/50000))`
(for a nonnegative rational `q`, `⌊√q⌋ = Nat.sqrt ⌊q⌋`). -/

def totalPixelsOf (img : Img) : Nat := img.width * img.height

def minSizeOf (img : Img) : Nat := max 50 (totalPixelsOf img / 625)

def maxSizeOf (img : Img) : Nat := 6 * totalPixelsOf img / 2500

def stepOf (img : Img) : Nat := max 15 (Nat.sqrt (81 * totalPixelsOf img / 50000))

/-- Random/float oracle for the generator.
`jit k` models the `k`-th `Math.floor(Math.random()*step)` seed jitter;
`brush n dx dy` models the brush-stroke shape test of the `n`-th
`growOrganicRegion` call (the test is a pure function of the random stroke
angle, the seed and the offset (dx, dy); all its randomness and float
arithmetic live in the oracle); `shufR n i` models the `j` draw of the
Fisher–Yates neighbor shuffle at shuffle event `n`, step `i`; `sqrtQ`
models `Math.sqrt` in centroid-distance computations. -/
structure GenOracle where
  jit : Nat → Nat
  brush : Nat → Int → Int → Bool
  shufR : Nat → Nat → Nat
  sqrtQ : ℚ → ℚ

/-- Swap entries `i` and `j` of a neighbor list (both in range at every use). -/
def swapP (l : List (Int × Int)) (i j : Nat) : List (Int × Int) :=
  (l.set i (l.getD j (0, 0))).set j (l.getD i (0, 0))

/-- Fisher–Yates shuffle of the 8-element neighbor list (`imageAnalyzer.js`
lines 310-313): for `i = 7 .. 1`, swap index `i` with a random index
`j ∈ [0, i]`; the oracle draw is clamped into that range. -/
def fisherYates8 (r : Nat → Nat) (l : List (Int × Int)) : List (Int × Int) :=
  swapP (swapP (swapP (swapP (swapP (swapP (swapP l
    7 (min (r 7) 7)) 6 (min (r 6) 6)) 5 (min (r 5) 5)) 4 (min (r 4) 4))
    3 (min (r 3) 3)) 2 (min (r 2) 2)) 1 (min (r 1) 1)

/-- Result of the flood-fill loop of `growOrganicRegion`: accumulated member
pixels, running bounds, the visited map, and the shuffle-event counter. -/
structure GrowOut where
  pixels : List (Nat × Nat)
  mnX : Int
  mnY : Int
  mxX : Int
  mxY : Int
  visited : Nat × Nat → Bool
  sc : Nat

/-- The `while` loop of `growOrganicRegion` (`imageAnalyzer.js` lines
241-316): breadth-first expansion from the seed, bounded by `maxSize`
pixels, skipping out-of-bounds, already-visited and brush-shape-rejected
candidates, marking accepted pixels visited and enqueueing their eight
neighbors in shuffled order.  (The color-threshold branch, lines 273-285,
is dead at every call site: `colorThreshold` is `Infinity`.  The `dist`
field carried by queue entries is dead data and not modelled.) -/
def growLoop (W H maxSize : Nat) (brush : Int → Int → Bool)
    (shufR : Nat → Nat → Nat) (sx sy : Nat)
    (queue : List (Int × Int)) (visited : Nat × Nat → Bool)
    (pixels : List (Nat × Nat)) (mnX mnY mxX mxY : Int) (sc : Nat) : GrowOut :=
  match queue with
  | [] => ⟨pixels, mnX, mnY, mxX, mxY, visited, sc⟩
  | (x, y) :: rest =>
    if hstop : maxSize ≤ pixels.length then ⟨pixels, mnX, mnY, mxX, mxY, visited, sc⟩
    else if x < 0 ∨ (W : Int) ≤ x ∨ y < 0 ∨ (H : Int) ≤ y then
      growLoop W H maxSize brush shufR sx sy rest visited pixels mnX mnY mxX mxY sc
    else if visited (x.toNat, y.toNat) then
      growLoop W H maxSize brush shufR sx sy rest visited pixels mnX mnY mxX mxY sc
    else if ¬ brush (x - (sx : Int)) (y - (sy : Int)) then
      growLoop W H maxSize brush shufR sx sy rest visited pixels mnX mnY mxX mxY sc
    else
      let visited2 : Nat × Nat → Bool :=
        fun q => if q = (x.toNat, y.toNat) then true else visited q
      let pixels2 := pixels ++ [(x.toNat, y.toNat)]
      let nbrs : List (Int × Int) :=
        [(x+1, y), (x-1, y), (x, y+1), (x, y-1),
         (x+1, y+1), (x-1, y-1), (x+1, y-1), (x-1, y+1)]
      growLoop W H maxSize brush shufR sx sy
        (rest ++ fisherYates8 (shufR sc) nbrs) visited2 pixels2
        (min mnX x) (min mnY y) (max mxX x) (max mxY y) (sc + 1)
termination_by 8 * (maxSize - pixels.length) + queue.length
decreasing_by
  all_goals simp [fisherYates8, swapP, List.length_set]
  all_goals omega

/-- Bounding box as returned by `growOrganicRegion` (lines 318-326). -/
structure Bounds where
  x : Int
  y : Int
  width : Int
  height : Int

/-- A grown region: member pixels plus bounding box. -/
structure Region where
  pixels : List (Nat × Nat)
  bounds : Bounds

/-- `growOrganicRegion` (`imageAnalyzer.js` lines 215-327): run the flood
fill from the seed and package the result; returns the region, the updated
visited map, and the advanced shuffle counter. -/
def growOrganicRegion (W H : Nat) (brush : Int → Int → Bool)
    (shufR : Nat → Nat → Nat) (sx sy : Nat) (visited : Nat × Nat → Bool)
    (maxSize sc : Nat) : Region × (Nat × Nat → Bool) × Nat :=
  let g := growLoop W H maxSize brush shufR sx sy [((sx : Int), (sy : Int))]
    visited [] (sx : Int) (sy : Int) (sx : Int) (sy : Int) sc
  (⟨g.pixels, ⟨g.mnX, g.mnY, g.mxX - g.mnX + 1, g.mxY - g.mnY + 1⟩⟩, g.visited, g.sc)

/-- `createFragmentFromRegion` (`imageAnalyzer.js` lines 337-379): a fresh
transparent buffer the size of the bounding box, member pixels copied from
the source at their offsets (a typed-array write outside the buffer is
dropped, hence the range guard), brightness the mean luminance of the
member pixels.  Returns `none` for an empty region. -/
def createFragmentFromRegion (img : Img) (region : Region) : Option Fragment :=
  match region.pixels with
  | [] => none
  | _ :: _ =>
    let b := region.bounds
    let copy := region.pixels.foldl
      (fun (st : (Nat × Nat → RGBA) × ℚ) p =>
        let src := img.data p
        let dx : Int := (p.1 : Int) - b.x
        let dy : Int := (p.2 : Int) - b.y
        let buf2 : Nat × Nat → RGBA :=
          if 0 ≤ dx ∧ dx < b.width ∧ 0 ≤ dy ∧ dy < b.height then
            fun q => if q = (dx.toNat, dy.toNat) then src else st.1 q
          else st.1
        (buf2, st.2 + lum src))
      ((fun _ => RGBA.clear), 0)
    some
      { x := b.x.toNat
        y := b.y.toNat
        width := b.width.toNat
        height := b.height.toNat
        brightness := copy.2 / region.pixels.length
        imageData := copy.1 }

/-- Grid starting offsets `0, step, 2·step, …` strictly below `bound`
(the `for (let s = 0; s < bound; s += step)` loops of lines 103-104). -/
def gridStarts (bound step : Nat) : List Nat :=
  (List.range ((bound + step - 1) / step)).map (· * step)

/-- The seeded-pass grid cells in source order: `startY` outer, `startX`
inner. -/
def seedCells (W H step : Nat) : List (Nat × Nat) :=
  (gridStarts H step).flatMap (fun sy => (gridStarts W step).map (fun sx => (sx, sy)))

/-- All image pixels in raster order (the fill-pass scan of lines 140-141). -/
def rasterCells (W H : Nat) : List (Nat × Nat) :=
  (List.range H).flatMap (fun y => (List.range W).map (fun x => (x, y)))

/-- Running state of `createOrganicFragments`: the accumulated fragment
list, the shared `visited` map, and the oracle stream counters (region
calls, shuffle events, jitter draws). -/
structure GenSt where
  frags : List Fragment
  visited : Nat × Nat → Bool
  rc : Nat
  sc : Nat
  jc : Nat

/-- One cell of the seeded pass (`imageAnalyzer.js` lines 103-129): jitter
the seed inside the cell, grow a region against a *copy* of the visited
map (`tempVisited`), and accept the fragment only if the region reached
`minSize` pixels.  The shared `visited` map is left untouched: the grown
region's marks live only in the discarded copy. -/
def seededStep (img : Img) (o : GenOracle) (minSize maxSize : Nat)
    (st : GenSt) (cell : Nat × Nat) : GenSt :=
  let x := min (img.width - 1) (cell.1 + o.jit st.jc)
  let y := min (img.height - 1) (cell.2 + o.jit (st.jc + 1))
  let g := growOrganicRegion img.width img.height (o.brush st.rc) o.shufR
    x y st.visited maxSize st.sc
  let frags2 :=
    if minSize ≤ g.1.pixels.length then
      match createFragmentFromRegion img g.1 with
      | some f => st.frags ++ [f]
      | none => st.frags
    else st.frags
  ⟨frags2, st.visited, st.rc + 1, g.2.2, st.jc + 2⟩

/-- The seeded pass: fold `seededStep` over the grid cells. -/
def seededPass (img : Img) (o : GenOracle) (minSize maxSize step : Nat)
    (st : GenSt) : GenSt :=
  (seedCells img.width img.height step).foldl (seededStep img o minSize maxSize) st

/-- One pixel of the fill pass (`imageAnalyzer.js` lines 140-161): if the
pixel is not yet claimed, grow a region from it against the *shared*
visited map (claims are committed this time) and accept the resulting
fragment whatever its size, as long as it is non-empty. -/
def fillStep (img : Img) (o : GenOracle) (maxSize : Nat)
    (st : GenSt) (cell : Nat × Nat) : GenSt :=
  if st.visited cell then st
  else
    let g := growOrganicRegion img.width img.height (o.brush st.rc) o.shufR
      cell.1 cell.2 st.visited maxSize st.sc
    let frags2 :=
      if 0 < g.1.pixels.length then
        match createFragmentFromRegion img g.1 with
        | some f => st.frags ++ [f]
        | none => st.frags
      else st.frags
    ⟨frags2, g.2.1, st.rc + 1, g.2.2, st.jc⟩

/-- The fill pass: fold `fillStep` over every pixel in raster order. -/
def fillPass (img : Img) (o : GenOracle) (maxSize : Nat) (st : GenSt) : GenSt :=
  (rasterCells img.width img.height).foldl (fillStep img o maxSize) st

/-- Initial generator state: nothing claimed, empty fragment list. -/
def genInit : GenSt := ⟨[], fun _ => false, 0, 0, 0⟩

/-- The fragment set after the Generator's two passes (the contents of the
`fragments` array at line 162 of `imageAnalyzer.js`, before merging). -/
def twoPassFragments (img : Img) (o : GenOracle) : List Fragment :=
  (fillPass img o (maxSizeOf img)
    (seededPass img o (minSizeOf img) (maxSizeOf img) (stepOf img) genInit)).frags

/-! ## Fragment Merger (`imageAnalyzer.js`, `mergeSmallFragments` /
`mergeFragmentGroup`) -/

/-- Copy state while materializing a merged fragment: the buffer under
construction, the running luminance total, and the copied-pixel count. -/
structure CopySt where
  buf : Nat × Nat → RGBA
  tb : ℚ
  pc : Nat

/-- Copy one row `y` of member `f` into the merged buffer (`imageAnalyzer.js`
lines 653-673, inner `x` loop): only non-transparent source pixels are
written, each write also accumulating its luminance and bumping the copied
count. -/
def copyRow (minX minY : Nat) (f : Fragment) (y : Nat) (st : CopySt) : CopySt :=
  (List.range f.width).foldl
    (fun st x =>
      let src := f.imageData (x, y)
      if 0 < src.a then
        { buf := fun q => if q = (f.x - minX + x, f.y - minY + y) then src else st.buf q
          tb := st.tb + lum src
          pc := st.pc + 1 }
      else st)
    st

/-- Copy every pixel of member `f` (the `y` loop of lines 652-674). -/
def copyMember (minX minY : Nat) (st : CopySt) (f : Fragment) : CopySt :=
  (List.range f.height).foldl (fun st y => copyRow minX minY f y st) st

/-- `mergeFragmentGroup` (`imageAnalyzer.js` lines 619-687): singleton
groups pass through; otherwise the merged bounding box is the union of the
member boxes, members are copied in order (later writes overwrite earlier
ones on overlap), and the brightness is the total copied luminance divided
by the number of copy operations (falling back to the first member's
brightness if nothing was copied). -/
def groupMinX (g : List Fragment) (x0 : Nat) : Nat := g.foldl (fun m f => min m f.x) x0

def groupMinY (g : List Fragment) (y0 : Nat) : Nat := g.foldl (fun m f => min m f.y) y0

def groupMaxX (g : List Fragment) (x0 : Nat) : Nat :=
  g.foldl (fun m f => max m (f.x + f.width)) x0

def groupMaxY (g : List Fragment) (y0 : Nat) : Nat :=
  g.foldl (fun m f => max m (f.y + f.height)) y0

def mergeFragmentGroup : List Fragment → Option Fragment
  | [] => none
  | [f] => some f
  | f0 :: f1 :: fs =>
    let g := f0 :: f1 :: fs
    let minX := groupMinX g f0.x
    let minY := groupMinY g f0.y
    let maxX := groupMaxX g (f0.x + f0.width)
    let maxY := groupMaxY g (f0.y + f0.height)
    let copy := g.foldl (copyMember minX minY) ⟨fun _ => RGBA.clear, 0, 0⟩
    some
      { x := minX
        y := minY
        width := maxX - minX
        height := maxY - minY
        brightness := if 0 < copy.pc then copy.tb / copy.pc else f0.brightness
        imageData := copy.buf }

/-- Does member `f`, placed at its offset inside a merged box anchored at
(minX, minY), write a (non-transparent) pixel at merged-buffer position
`q`?  The write positions of `f` are `(f.x − minX + x, f.y − minY + y)`
for `x < f.width`, `y < f.height`. -/
def memHit (minX minY : Nat) (f : Fragment) (q : Nat × Nat) : Prop :=
  f.x - minX ≤ q.1 ∧ q.1 < f.x - minX + f.width ∧
  f.y - minY ≤ q.2 ∧ q.2 < f.y - minY + f.height ∧
  0 < (f.imageData (q.1 - (f.x - minX), q.2 - (f.y - minY))).a

instance (minX minY : Nat) (f : Fragment) (q : Nat × Nat) :
    Decidable (memHit minX minY f q) := by
  unfold memHit; infer_instance

/-- The pixel member `f` contributes at merged-buffer position `q`. -/
def memPix (minX minY : Nat) (f : Fragment) (q : Nat × Nat) : RGBA :=
  f.imageData (q.1 - (f.x - minX), q.2 - (f.y - minY))

/-- Stated from the (amended) claim: scanning the members in order, the
merged pixel at `q` is the pixel of the **last** member that writes a
non-transparent pixel there (transparent if none does). -/
def lastWriterPixel (minX minY : Nat) (g : List Fragment) (q : Nat × Nat) : RGBA :=
  g.foldl (fun acc f => if memHit minX minY f q then memPix minX minY f q else acc)
    RGBA.clear

/-- Luminance total of row `y` of a member's non-transparent pixels. -/
def rowLum (f : Fragment) (y : Nat) : ℚ :=
  (List.range f.width).foldl
    (fun a x => if 0 < (f.imageData (x, y)).a then a + lum (f.imageData (x, y)) else a) 0

/-- Number of non-transparent pixels in row `y` of a member. -/
def rowCount (f : Fragment) (y : Nat) : Nat :=
  (List.range f.width).foldl
    (fun a x => if 0 < (f.imageData (x, y)).a then a + 1 else a) 0

/-- Luminance total over all of a member's non-transparent pixels. -/
def memberLum (f : Fragment) : ℚ :=
  (List.range f.height).foldl (fun a y => a + rowLum f y) 0

/-- Number of non-transparent pixels of a member. -/
def memberCount (f : Fragment) : Nat :=
  (List.range f.height).foldl (fun a y => a + rowCount f y) 0

/-- Stated from the claim: total copied luminance of a group (each copy
operation counted, overwritten copies included). -/
def groupLum (g : List Fragment) : ℚ := g.foldl (fun a f => a + memberLum f) 0

/-- Stated from the claim: total number of copy operations of a group. -/
def groupCount (g : List Fragment) : Nat := g.foldl (fun a f => a + memberCount f) 0

/-- Centroid of a fragment's bounding box, `(x + width/2, y + height/2)`. -/
def centerOf (f : Fragment) : ℚ × ℚ :=
  ((f.x : ℚ) + (f.width : ℚ) / 2, (f.y : ℚ) + (f.height : ℚ) / 2)

/-- Mean of the members' centroids (`imageAnalyzer.js` lines 536-542). -/
def groupCenter (g : List Fragment) : ℚ × ℚ :=
  (((g.map (fun f => (centerOf f).1)).sum) / g.length,
   ((g.map (fun f => (centerOf f).2)).sum) / g.length)

/-- Mean brightness of the members (lines 517-522). -/
def groupAvgBrightness (g : List Fragment) : ℚ :=
  ((g.map (·.brightness)).sum) / g.length

/-- A merge candidate record (lines 558-566). -/
structure Cand where
  index : Nat
  fragment : Fragment
  size : ℚ
  distance : ℚ
  brightnessDiff : ℚ
  score : ℚ

/-- Collect merge candidates for the group seeded at index `i` (lines
524-568): scan indices `j > i` not yet consumed, skip those that would push
the group past `maxGroupSize = targetMinSize·2.5`, keep those within
centroid distance `targetMinSize·3`, scoring by
`2·|avgBrightness − brightness| + 0.1·distance`. -/
def collectCands (sqrtQ : ℚ → ℚ) (tms : ℚ) (toMerge : List Fragment)
    (i : Nat) (group : List Fragment) (currentSize avgB : ℚ)
    (used : List Nat) : List Cand :=
  let maxGroupSize := tms * 2.5
  let c := groupCenter group
  (toMerge.enum.drop (i + 1)).foldl
    (fun acc fj =>
      let frag2 := fj.2
      let j := fj.1
      if j ∈ used then acc
      else
        let frag2Size : ℚ := (frag2.width * frag2.height : Nat)
        if maxGroupSize < currentSize + frag2Size then acc
        else
          let c2 := centerOf frag2
          let distance := sqrtQ ((c.1 - c2.1) ^ 2 + (c.2 - c2.2) ^ 2)
          if distance < tms * 3 then
            let bd := |avgB - frag2.brightness|
            acc ++ [⟨j, frag2, frag2Size, distance, bd, bd * 2 + distance * 0.1⟩]
          else acc)
    []

/-- Stable insertion into a score-ascending list (a candidate is placed
after existing candidates of equal score, as `Array.prototype.sort` with
the numeric comparator of line 571 would). -/
def insertByScore (c : Cand) : List Cand → List Cand
  | [] => [c]
  | d :: ds => if d.score ≤ c.score then d :: insertByScore c ds else c :: d :: ds

/-- Stable sort of the candidate list by ascending score (line 571). -/
def sortByScore : List Cand → List Cand
  | [] => []
  | c :: cs => insertByScore c (sortByScore cs)

/-- The absorption loop (lines 574-591): take candidates in score order
until the group reaches `targetMinSize`, skipping already-consumed indices,
stopping once the group has 10 members.  (The running average-brightness
update of lines 583-587 feeds nothing downstream.) -/
def absorb (tms : ℚ) : List Cand → List Fragment → List Nat → ℚ →
    List Fragment × List Nat
  | [], group, used, _ => (group, used)
  | c :: rest, group, used, currentSize =>
    if tms ≤ currentSize then (group, used)
    else if c.index ∈ used then absorb tms rest group used currentSize
    else
      let group2 := group ++ [c.fragment]
      let used2 := used ++ [c.index]
      let cs2 := currentSize + c.size
      if 10 ≤ group2.length then (group2, used2)
      else absorb tms rest group2 used2 cs2

/-- Group the small fragments (lines 504-594): each unconsumed index seeds
a group, gathers scored candidates and absorbs the best ones. -/
def buildGroups (sqrtQ : ℚ → ℚ) (tms : ℚ) (toMerge : List Fragment) :
    List (List Fragment) :=
  ((List.range toMerge.length).foldl
    (fun (st : List (List Fragment) × List Nat) i =>
      if i ∈ st.2 then st
      else
        let f := toMerge.getD i dFrag
        let group := [f]
        let used := st.2 ++ [i]
        let currentSize : ℚ := (f.width * f.height : Nat)
        let avgB := groupAvgBrightness group
        let cands := sortByScore (collectCands sqrtQ tms toMerge i group currentSize avgB used)
        let ga := absorb tms cands group used currentSize
        (st.1 ++ [ga.1], ga.2))
    ([], [])).1

/-- One merge round (lines 482-607): partition into small and normal
fragments, group the small ones, and materialize each group. -/
def mergeRound (sqrtQ : ℚ → ℚ) (tms : ℚ) (cur : List Fragment) : List Fragment :=
  let parts := cur.partition (fun f => ((f.width * f.height : Nat) : ℚ) < tms)
  (buildGroups sqrtQ tms parts.1).foldl
    (fun acc g =>
      match mergeFragmentGroup g with
      | some f => acc ++ [f]
      | none => acc)
    parts.2

/-- The iteration loop of `mergeSmallFragments` (lines 481-608), with the
number of performed rounds returned alongside the fragments: up to 5
rounds, stopping early as soon as no fragment is below `targetMinSize`. -/
def mergeSmallFragmentsGo (sqrtQ : ℚ → ℚ) (tms : ℚ) :
    Nat → List Fragment → List Fragment × Nat
  | 0, cur => (cur, 5)
  | fuel + 1, cur =>
    if cur.any (fun f => ((f.width * f.height : Nat) : ℚ) < tms) then
      mergeSmallFragmentsGo sqrtQ tms fuel (mergeRound sqrtQ tms cur)
    else (cur, 5 - (fuel + 1))

/-- `mergeSmallFragments` (`imageAnalyzer.js` lines 473-612): the target
minimum size is `minSize · 1.5`, and the round cap is 5. -/
def mergeSmallFragments (sqrtQ : ℚ → ℚ) (fragments : List Fragment)
    (minSize : Nat) : List Fragment :=
  (mergeSmallFragmentsGo sqrtQ ((minSize : ℚ) * 1.5) 5 fragments).1

/-- `createOrganicFragments` (`imageAnalyzer.js` lines 81-201): the two
passes followed by merging with threshold `minSize · 2`. -/
def createOrganicFragments (img : Img) (o : GenOracle) : List Fragment :=
  mergeSmallFragments o.sqrtQ (twoPassFragments img o) (minSizeOf img * 2)

/-! ## Spatial Sequencer (`imageAnalyzer.js`, `sortFragmentsSpatially`) -/

/-- Index of the brightest fragment (`imageAnalyzer.js` lines 697-706):
a strict-`>` scan, so the first occurrence of the maximum wins ties. -/
def findBrightestIdx : List Fragment → Nat
  | [] => 0
  | f0 :: rest =>
    (rest.foldl
      (fun (st : Nat × ℚ × Nat) f =>
        if st.2.1 < f.brightness then (st.2.2, f.brightness, st.2.2 + 1)
        else (st.1, st.2.1, st.2.2 + 1))
      (0, f0.brightness, 1)).1

/-- Centroid distance between two fragments (lines 723-735), with
`Math.sqrt` as the abstract `sqrtQ`. -/
def fragDist (sqrtQ : ℚ → ℚ) (f1 f2 : Fragment) : ℚ :=
  let c1 := centerOf f1
  let c2 := centerOf f2
  sqrtQ ((c1.1 - c2.1) ^ 2 + (c1.2 - c2.2) ^ 2)

/-- Scan the recency window for one remaining fragment (the inner loop of
lines 728-741), threading the best (index, distance) found so far;
`none` plays the role of the initial `Infinity`. -/
def scanRecent (sqrtQ : ℚ → ℚ) (f1 : Fragment) (recent : List Fragment)
    (i : Nat) (acc : Option (Nat × ℚ)) : Option (Nat × ℚ) :=
  recent.foldl
    (fun a rf =>
      let d := fragDist sqrtQ f1 rf
      match a with
      | none => some (i, d)
      | some (ci, m) => if d < m then some (i, d) else some (ci, m))
    acc

/-- Find the remaining fragment closest to the recency window (the outer
loop of lines 721-742); `none` corresponds to `closestIndex === -1`. -/
def findClosest (sqrtQ : ℚ → ℚ) (recent remaining : List Fragment) : Option Nat :=
  ((remaining.foldl
    (fun (st : Nat × Option (Nat × ℚ)) f1 =>
      (st.1 + 1, scanRecent sqrtQ f1 recent st.1 st.2))
    (0, none)).2).map (·.1)

/-- Append to the recency window, evicting the oldest entry beyond 20
(lines 750-754). -/
def pushRecent (recent : List Fragment) (f : Fragment) : List Fragment :=
  let r := recent ++ [f]
  if 20 < r.length then r.tail else r

/-- The sequencing loop of `sortFragmentsSpatially` (lines 717-766), with
fuel: each iteration moves the closest remaining fragment (or, as the
source's fallback, the first remaining one) into the output.  The wrapper
passes `remaining.length` as fuel, which is exactly the number of
iterations the source's `while` performs. -/
def sortGo (sqrtQ : ℚ → ℚ) : Nat → List Fragment → List Fragment →
    List Fragment → List Fragment
  | 0, sorted, _, _ => sorted
  | fuel + 1, sorted, recent, remaining =>
    if remaining.isEmpty then sorted
    else
      match findClosest sqrtQ recent remaining with
      | some ci =>
        let next := remaining.getD ci dFrag
        sortGo sqrtQ fuel (sorted ++ [next]) (pushRecent recent next)
          (remaining.eraseIdx ci)
      | none =>
        let next := remaining.getD 0 dFrag
        sortGo sqrtQ fuel (sorted ++ [next]) (pushRecent recent next)
          (remaining.eraseIdx 0)

/-- `sortFragmentsSpatially` (`imageAnalyzer.js` lines 694-769): start from
the brightest fragment (`remaining` is the list with its index filtered
out) and repeatedly append the remaining fragment closest to the recency
window. -/
def sortFragmentsSpatially (sqrtQ : ℚ → ℚ) (fragments : List Fragment) :
    List Fragment :=
  if fragments.isEmpty then fragments
  else
    let bi := findBrightestIdx fragments
    let b := fragments.getD bi dFrag
    let remaining := fragments.eraseIdx bi
    sortGo sqrtQ remaining.length [b] [b] remaining

/-! ## Stroke Renderer / Animation Scheduler (`paintEngine.js`)

The render surface is a total function from (x, y) to RGB colors.  The
surface effect of compositing a fragment or a fragment column involves
floating-point alpha blending, sub-pixel `1.2×1.2` cells and image
smoothing; those composites are modelled as opaque surface-update
functions supplied by the oracle (`paintCol`, `paintFrag`, `paintStroke`).
Everything the claims speak about — indices, mode flags, progress
notifications, the temp-canvas dimensions, clears-to-black — is concrete.
The position in the `Math.random()` stream is threaded as the `rng`
counter and drives the oracle. -/

abbrev Color := Nat × Nat × Nat

/-- The background fill color `#000000`. -/
def blackC : Color := (0, 0, 0)

/-- Notifications the engine emits (`onProgress(current, total)` and
`onComplete()`). -/
inductive PEvent where
  | progress (current : Int) (total : Nat)
  | complete
deriving DecidableEq

/-- Oracle for the renderer's randomness and float compositing:
`dir n` is the `Math.random() > 0.5` sweep-direction draw at stream
position `n`; `paintCol n surf frag col` is the surface after
`drawFragmentColumn` (random opacity at stream position `n`);
`paintFrag surf frag` is the surface after the deterministic
`drawFragmentDirect` composite; `paintStroke n surf frag` after the
jittered `drawFragment` composite (3 random draws from position `n`). -/
structure RendOracle where
  dir : Nat → Bool
  paintCol : Nat → (Nat × Nat → Color) → Fragment → Int → (Nat × Nat → Color)
  paintFrag : (Nat × Nat → Color) → Fragment → (Nat × Nat → Color)
  paintStroke : Nat → (Nat × Nat → Color) → Fragment → (Nat × Nat → Color)

/-- The full mutable state of a `PaintEngine` instance. -/
structure PaintState where
  fragments : List Fragment
  currentIndex : Int
  isPlaying : Bool
  isPaused : Bool
  animationId : Bool
  speed : ℚ
  lastFrameTime : ℚ
  fragmentsPerFrame : Nat
  isErasing : Bool
  drawnFragments : List Int
  currentFragmentColumn : Int
  currentFragmentDirection : Int
  columnsPerFrame : Nat
  canvasW : Nat
  canvasH : Nat
  canvas : Nat × Nat → Color
  tempW : Nat
  tempH : Nat
  rng : Nat

/-- The constructor state (`paintEngine.js` lines 5-27); the canvas
element's dimensions and initial content are the host's. -/
def initEngine (W H : Nat) (surf : Nat × Nat → Color) : PaintState :=
  { fragments := [], currentIndex := 0, isPlaying := false, isPaused := false
    animationId := false, speed := 50, lastFrameTime := 0, fragmentsPerFrame := 1
    isErasing := false, drawnFragments := [], currentFragmentColumn := 0
    currentFragmentDirection := 1, columnsPerFrame := 5
    canvasW := W, canvasH := H, canvas := surf, tempW := 300, tempH := 150, rng := 0 }

/-- `ctx.fillStyle = '#000000'; ctx.fillRect(0, 0, W, H)`. -/
def fillBlack (W H : Nat) (c : Nat × Nat → Color) : Nat × Nat → Color :=
  fun q => if q.1 < W ∧ q.2 < H then blackC else c q

/-- `updateFragmentsPerFrame` (lines 59-62): speed 1-100 maps to
`max(1, ⌊speed/5⌋)` fragments per frame. -/
def updateFragmentsPerFrame (s : PaintState) : PaintState :=
  { s with fragmentsPerFrame := (max 1 ⌊s.speed / 5⌋).toNat }

/-- `load` (lines 35-54). -/
def load (frags : List Fragment) (W H : Nat) (s : PaintState) : PaintState :=
  updateFragmentsPerFrame
    { s with fragments := frags, currentIndex := 0, isPlaying := false
             isPaused := false, isErasing := false, drawnFragments := []
             currentFragmentColumn := 0, currentFragmentDirection := 1
             canvasW := W, canvasH := H, canvas := fillBlack W H s.canvas }

/-- `start` (lines 67-74): the immediate `animate()` call sees
`deltaTime = 0 < 16.67` and only schedules the next frame, which the
`animationId := true` records. -/
def start (now : ℚ) (s : PaintState) : PaintState :=
  if s.isPlaying && !s.isPaused then s
  else { s with isPlaying := true, isPaused := false, lastFrameTime := now
                animationId := true }

/-- `pause` (lines 79-85): cancels any pending scheduled frame. -/
def pause (s : PaintState) : PaintState :=
  { s with isPaused := true, animationId := false }

/-- `resume` (lines 90-95). -/
def resume (now : ℚ) (s : PaintState) : PaintState :=
  if !s.isPaused then s
  else { s with isPaused := false, lastFrameTime := now, animationId := true }

/-- `reset` (lines 100-118): pause, zero all progress state, clear the
surface when the canvas has positive dimensions, and notify progress
`(0, total)`. -/
def reset (s : PaintState) : PaintState × List PEvent :=
  let s1 := pause s
  let s2 :=
    { s1 with currentIndex := 0, isPlaying := false, isPaused := false
              isErasing := false, drawnFragments := []
              currentFragmentColumn := 0, currentFragmentDirection := 1
              canvas := if 0 < s1.canvasW ∧ 0 < s1.canvasH then
                  fillBlack s1.canvasW s1.canvasH s1.canvas
                else s1.canvas }
  (s2, [PEvent.progress 0 s2.fragments.length])

/-- `setSpeed` (lines 124-127): clamp into [1, 100] and refresh the
per-frame budget. -/
def setSpeed (v : ℚ) (s : PaintState) : PaintState :=
  updateFragmentsPerFrame { s with speed := max 1 (min 100 v) }

/-- `startErasing` (lines 231-239). -/
def startErasing (now : ℚ) (s : PaintState) : PaintState :=
  if s.isErasing then s
  else { s with isErasing := true, currentIndex := (s.fragments.length : Int) - 1
                isPlaying := true, isPaused := false, lastFrameTime := now
                animationId := true }

/-- `drawFragmentDirect` (lines 362-375): resize the shared temp canvas
whenever the fragment's dimensions differ from its current ones, then
composite the fragment verbatim at its offset. -/
def drawFragmentDirect (o : RendOracle) (s : PaintState) (f : Fragment) :
    PaintState :=
  let s1 :=
    if s.tempW = f.width ∧ s.tempH = f.height then s
    else { s with tempW := f.width, tempH := f.height }
  { s1 with canvas := o.paintFrag s1.canvas f }

/-- `drawFragment` (lines 314-356): same temp-canvas reuse, then the
jittered stroke composite (3 `Math.random()` draws: opacity and the two
jitter offsets). -/
def drawFragment (o : RendOracle) (s : PaintState) (f : Fragment) :
    PaintState :=
  let s1 :=
    if s.tempW = f.width ∧ s.tempH = f.height then s
    else { s with tempW := f.width, tempH := f.height }
  { s1 with canvas := o.paintStroke s1.rng s1.canvas f, rng := s1.rng + 3 }

/-- `eraseFragment` (lines 245-255): clear the whole surface and redraw
fragments `[0, index)` with the direct composite. -/
def eraseFragment (o : RendOracle) (s : PaintState) (index : Int) : PaintState :=
  let s1 := { s with canvas := fillBlack s.canvasW s.canvasH s.canvas }
  (s.fragments.take index.toNat).foldl (fun st f => drawFragmentDirect o st f) s1

/-- The erase loop of a tick (lines 144-149): up to `fragmentsPerFrame`
fragments erased, stopping when the index drops below 0. -/
def eraseLoop (o : RendOracle) : Nat → PaintState → PaintState
  | 0, s => s
  | n + 1, s =>
    if s.currentIndex < 0 then s
    else
      let s1 := eraseFragment o s s.currentIndex
      eraseLoop o n { s1 with currentIndex := s1.currentIndex - 1 }

/-- The column loop of a tick (lines 185-205): draw up to the adaptive
budget of columns of the current fragment, completing the fragment (and
advancing `currentIndex`) when the column leaves `[0, width)`. -/
def drawLoop (o : RendOracle) (frag : Fragment) : Nat → PaintState → PaintState
  | 0, s => s
  | n + 1, s =>
    let s1 := { s with canvas := o.paintCol s.rng s.canvas frag s.currentFragmentColumn,
                       rng := s.rng + 1 }
    let col2 : Int := s1.currentFragmentColumn + s1.currentFragmentDirection
    if s1.currentFragmentDirection = (1 : Int) ∧ (frag.width : Int) ≤ col2 then
      { s1 with currentFragmentColumn := 0, currentIndex := s1.currentIndex + 1
                drawnFragments := s1.drawnFragments ++ [s1.currentIndex] }
    else if s1.currentFragmentDirection = (-1 : Int) ∧ col2 < 0 then
      { s1 with currentFragmentColumn := 0, currentIndex := s1.currentIndex + 1
                drawnFragments := s1.drawnFragments ++ [s1.currentIndex] }
    else drawLoop o frag n { s1 with currentFragmentColumn := col2 }

/-- The drawing body of a tick (lines 168-206): pick a random sweep
direction when starting a new fragment, compute the adaptive per-tick
column budget `max(5, ⌈width/10⌉)`, and run the column loop. -/
def drawTickBody (o : RendOracle) (s : PaintState) : PaintState :=
  if s.currentIndex < (s.fragments.length : Int) then
    let fragment := s.fragments.getD s.currentIndex.toNat dFrag
    let s1 :=
      if s.currentFragmentColumn = 0 then
        let d : Int := if o.dir s.rng then 1 else -1
        let s2 := { s with currentFragmentDirection := d, rng := s.rng + 1 }
        if d = -1 then { s2 with currentFragmentColumn := (fragment.width : Int) - 1 }
        else s2
      else s
    drawLoop o fragment (max 5 ((fragment.width + 9) / 10)) s1
  else s

/-- One scheduler tick (`animate`, lines 132-226), invoked at host time
`now`: a no-op unless Playing and un-Paused; throttled to ~60 fps by the
`deltaTime ≥ 16.67` check; then either the erase branch or the draw
branch, each emitting a progress notification and, on completion, the
completion notification (completion paths do not reschedule). -/
def tick (o : RendOracle) (now : ℚ) (s : PaintState) :
    PaintState × List PEvent :=
  if !s.isPlaying || s.isPaused then (s, [])
  else if now - s.lastFrameTime < 16.67 then ({ s with animationId := true }, [])
  else
    let s0 := { s with lastFrameTime := now }
    if s0.isErasing then
      let s1 := eraseLoop o s0.fragmentsPerFrame s0
      let evs := [PEvent.progress (max 0 (s1.currentIndex + 1)) s1.fragments.length]
      if s1.currentIndex < 0 then
        ({ s1 with isErasing := false, currentIndex := 0, drawnFragments := [] },
         evs ++ [PEvent.complete])
      else ({ s1 with animationId := true }, evs)
    else
      let s1 := drawTickBody o s0
      let evs := [PEvent.progress s1.currentIndex s1.fragments.length]
      if (s1.fragments.length : Int) ≤ s1.currentIndex then
        ({ s1 with isPlaying := false }, evs ++ [PEvent.complete])
      else ({ s1 with animationId := true }, evs)

/-- `getProgress` (lines 398-401): percentage, 0 for an empty sequence. -/
def getProgress (s : PaintState) : Int :=
  if s.fragments.length = 0 then 0
  else round ((s.currentIndex : ℚ) / s.fragments.length * 100)

/-- The state invariant maintained by every engine operation: the per-frame
budget is at least 1, the index stays within `[-1, length]`, and it is
nonnegative outside erase mode. -/
def PaintInv (s : PaintState) : Prop :=
  1 ≤ s.fragmentsPerFrame ∧ -1 ≤ s.currentIndex ∧
  s.currentIndex ≤ (s.fragments.length : Int) ∧
  (s.isErasing = false → 0 ≤ s.currentIndex)

instance (s : PaintState) : Decidable (PaintInv s) := by
  unfold PaintInv; infer_instance

/-! ## Concrete instances used by witnesses and counterexamples -/

/-- A concrete generator oracle: zero jitter, a brush accepting every
offset, an identity shuffle, `sqrtQ = id`. -/
def oGen : GenOracle := ⟨fun _ => 0, fun _ _ _ => true, fun _ _ => 0, fun q => q⟩

/-- An opaque white image of the given dimensions. -/
def whiteImg (W H : Nat) : Img := ⟨W, H, fun _ => ⟨255, 255, 255, 255⟩⟩

/-- A concrete renderer oracle (forward sweep direction; surface composites
that leave the surface unchanged — no claim depends on composited values). -/
def oRend : RendOracle := ⟨fun _ => true, fun _ c _ _ => c, fun c _ => c, fun _ c _ => c⟩

/-- A 1×1 fully-opaque fragment at the origin with the given color. -/
def unitFrag (r g b : Nat) : Fragment :=
  ⟨0, 0, 1, 1, lum ⟨r, g, b, 255⟩, fun q => if q = (0, 0) then ⟨r, g, b, 255⟩ else RGBA.clear⟩

/-- A fresh engine loaded with the given fragments on a 4×4 surface. -/
def loadedState (frags : List Fragment) : PaintState :=
  load frags 4 4 (initEngine 4 4 (fun _ => blackC))

/-- Erase mode on a 1-fragment sequence with the index at
`length − 1 = 0`: exactly the state `load` of one fragment followed by
`startErasing` produces (written as a literal so that concrete runs avoid
rational-arithmetic reduction). -/
def c5State : PaintState :=
  { initEngine 4 4 (fun _ => blackC) with
      fragments := [unitFrag 255 255 255], isErasing := true, isPlaying := true
      currentIndex := 0, lastFrameTime := 50, animationId := true }

/-- Engine state with a 10×10 temp canvas (for the temp-canvas claims). -/
def c9State : PaintState :=
  { initEngine 4 4 (fun _ => blackC) with tempW := 10, tempH := 10 }

/-- A 5×5 fragment, strictly smaller than `c9State`'s temp canvas. -/
def c9Frag : Fragment := { dFrag with width := 5, height := 5 }

/-- Three concrete fragments with distinct brightness (the middle one the
brightest). -/
def c3Frags : List Fragment := [unitFrag 10 20 30, unitFrag 250 250 250, unitFrag 5 5 5]

/-- A red and a blue 1×1 fragment, both at the origin. -/
def c7A : Fragment := unitFrag 255 0 0

/-- See `c7A`. -/
def c7B : Fragment := unitFrag 0 0 255

/-- Pixel `p` lies within the (inclusive) running bounds of a region. -/
def inBnds (mnX mnY mxX mxY : Int) (p : Nat × Nat) : Prop :=
  mnX ≤ (p.1 : Int) ∧ (p.1 : Int) ≤ mxX ∧ mnY ≤ (p.2 : Int) ∧ (p.2 : Int) ≤ mxY

/-! ## Theorems -/

/-- **C10**: For every input value `v` (including values outside 1..100),
`setSpeed v` stores a speed clamped into [1, 100], and consequently the
per-tick fragments-per-frame budget derived from it always lies in
[1, 20]; out-of-range input never faults or leaves the budget below 1. -/
theorem setSpeed_clamps_speed_and_budget (v : ℚ) (s : PaintState) :
    1 ≤ (setSpeed v s).speed ∧ (setSpeed v s).speed ≤ 100 ∧
    1 ≤ (setSpeed v s).fragmentsPerFrame ∧ (setSpeed v s).fragmentsPerFrame ≤ 20 := by
  unfold setSpeed updateFragmentsPerFrame
  simp only
  refine ⟨le_max_left _ _, max_le (by norm_num) (min_le_left _ _), ?_, ?_⟩
  · have h1 : (1 : ℤ) ≤ max 1 ⌊max (1 : ℚ) (min 100 v) / 5⌋ := le_max_left _ _
    omega
  · have h2 : max (1 : ℚ) (min 100 v) / 5 ≤ 20 := by
      have := min_le_left (100 : ℚ) v
      have h : max (1 : ℚ) (min 100 v) ≤ 100 := max_le (by norm_num) this
      linarith
    have h3 : (⌊max (1 : ℚ) (min 100 v) / 5⌋ : ℤ) ≤ 20 := by
      have := Int.floor_le_floor h2
      simpa using this
    omega

/-- **C6**: Calling `reset` twice consecutively, from any renderer state,
yields a renderer state identical to calling `reset` once: the surface is
cleared and the index, column, direction, mode flags and drawn-history are
all zeroed/emptied, so a second `reset` changes nothing. -/
theorem reset_idempotent (s : PaintState) : (reset (reset s).1).1 = (reset s).1 := by
  cases s with
  | mk frags idx pl pa aid sp lft fpf er dr col dir cpf cw ch cv tw th rng =>
    simp only [reset, pause]
    by_cases h : 0 < cw ∧ 0 < ch
    · simp only [if_pos h]
      congr 1
      funext q
      simp only [fillBlack]
      split <;> simp_all
    · simp only [if_neg h]

/-- **C9** counterexample: with the temp canvas at 10×10, compositing a 5×5
fragment — whose dimensions do *not* exceed the buffer's capacity —
nevertheless resizes (shrinks) the buffer, contradicting "resized only when
a fragment's dimensions exceed the buffer's current capacity". -/
theorem tempCanvas_shrinks_below_capacity :
    c9Frag.width ≤ c9State.tempW ∧ c9Frag.height ≤ c9State.tempH ∧
    (drawFragmentDirect oRend c9State c9Frag).tempW = 5 ∧
    (drawFragmentDirect oRend c9State c9Frag).tempH = 5 ∧
    (drawFragmentDirect oRend c9State c9Frag).tempW ≠ c9State.tempW := by
  decide

/-- **C9** (amended): the single scratch canvas is reused across fragment
composites; it is resized exactly when the incoming fragment's dimensions
differ from the buffer's current dimensions (growing *or* shrinking), so
after any composite its dimensions equal that fragment's, and a subsequent
composite of a fragment with the same dimensions leaves it untouched. -/
theorem tempCanvas_resize_policy (o : RendOracle) (s : PaintState)
    (f g : Fragment) (hw : g.width = f.width) (hh : g.height = f.height) :
    (drawFragmentDirect o s f).tempW = f.width ∧
    (drawFragmentDirect o s f).tempH = f.height ∧
    (drawFragment o s f).tempW = f.width ∧
    (drawFragment o s f).tempH = f.height ∧
    (drawFragmentDirect o (drawFragmentDirect o s f) g).tempW = f.width ∧
    (drawFragmentDirect o (drawFragmentDirect o s f) g).tempH = f.height := by
  unfold drawFragmentDirect drawFragment
  by_cases h : s.tempW = f.width ∧ s.tempH = f.height
  · simp [if_pos h, h.1, h.2, hw, hh]
  · simp [if_neg h, hw, hh]

/-- Witness for `tempCanvas_resize_policy` at a concrete state and
fragment. -/
theorem tempCanvas_resize_policy_witness :
    (drawFragmentDirect oRend c9State c9Frag).tempW = c9Frag.width ∧
    (drawFragmentDirect oRend c9State c9Frag).tempH = c9Frag.height ∧
    (drawFragment oRend c9State c9Frag).tempW = c9Frag.width ∧
    (drawFragment oRend c9State c9Frag).tempH = c9Frag.height ∧
    (drawFragmentDirect oRend (drawFragmentDirect oRend c9State c9Frag) c9Frag).tempW
      = c9Frag.width ∧
    (drawFragmentDirect oRend (drawFragmentDirect oRend c9State c9Frag) c9Frag).tempH
      = c9Frag.height :=
  tempCanvas_resize_policy oRend c9State c9Frag c9Frag rfl rfl

/-- **C8**: If an empty fragment sequence is loaded, the renderer
immediately reports Complete at progress 0 of 0 on the first processed
tick, invokes the completion notification, and `getProgress` returns 0
without dividing by zero. -/
theorem tick_empty_reports_complete (o : RendOracle) (now : ℚ) (s : PaintState)
    (hf : s.fragments = []) (hp : s.isPlaying = true) (hpa : s.isPaused = false)
    (he : s.isErasing = false) (hi : s.currentIndex = 0)
    (hdt : (16.67 : ℚ) ≤ now - s.lastFrameTime) :
    (tick o now s).2 = [PEvent.progress 0 0, PEvent.complete] ∧
    (tick o now s).1.isPlaying = false ∧
    getProgress (tick o now s).1 = 0 := by
  unfold tick drawTickBody getProgress
  simp [hf, hp, hpa, he, hi, not_lt.2 hdt]

/-- Witness for `tick_empty_reports_complete`: a freshly loaded empty
sequence, started, on its first processed tick. -/
theorem tick_empty_witness :
    (tick oRend 100 (start 0 (loadedState []))).2
      = [PEvent.progress 0 0, PEvent.complete] ∧
    (tick oRend 100 (start 0 (loadedState []))).1.isPlaying = false ∧
    getProgress (tick oRend 100 (start 0 (loadedState []))).1 = 0 :=
  tick_empty_reports_complete oRend 100 (start 0 (loadedState []))
    rfl (by decide) (by decide) (by decide) (by decide)
    (by norm_num [start, loadedState, load, initEngine, updateFragmentsPerFrame])

/-- `drawFragmentDirect` only touches the surface and the temp-canvas
dimensions: every control field is preserved. -/
lemma drawFragmentDirect_ctl (o : RendOracle) (s : PaintState) (f : Fragment) :
    (drawFragmentDirect o s f).currentIndex = s.currentIndex ∧
    (drawFragmentDirect o s f).fragments = s.fragments ∧
    (drawFragmentDirect o s f).isErasing = s.isErasing ∧
    (drawFragmentDirect o s f).isPlaying = s.isPlaying ∧
    (drawFragmentDirect o s f).isPaused = s.isPaused ∧
    (drawFragmentDirect o s f).fragmentsPerFrame = s.fragmentsPerFrame := by
  unfold drawFragmentDirect
  split <;> simp

/-- Folding `drawFragmentDirect` over a fragment list preserves every
control field. -/
lemma foldDirect_ctl (o : RendOracle) (l : List Fragment) : ∀ s : PaintState,
    ((l.foldl (fun st f => drawFragmentDirect o st f) s).currentIndex = s.currentIndex ∧
     (l.foldl (fun st f => drawFragmentDirect o st f) s).fragments = s.fragments ∧
     (l.foldl (fun st f => drawFragmentDirect o st f) s).isErasing = s.isErasing ∧
     (l.foldl (fun st f => drawFragmentDirect o st f) s).isPlaying = s.isPlaying ∧
     (l.foldl (fun st f => drawFragmentDirect o st f) s).isPaused = s.isPaused ∧
     (l.foldl (fun st f => drawFragmentDirect o st f) s).fragmentsPerFrame
       = s.fragmentsPerFrame) := by
  induction l with
  | nil => intro s; simp
  | cons f l ih =>
    intro s
    have h1 := drawFragmentDirect_ctl o s f
    have h2 := ih (drawFragmentDirect o s f)
    simp only [List.foldl_cons] at *
    exact ⟨h2.1.trans h1.1, h2.2.1.trans h1.2.1, h2.2.2.1.trans h1.2.2.1,
      h2.2.2.2.1.trans h1.2.2.2.1, h2.2.2.2.2.1.trans h1.2.2.2.2.1,
      h2.2.2.2.2.2.trans h1.2.2.2.2.2⟩

/-- `eraseFragment` preserves every control field. -/
lemma eraseFragment_ctl (o : RendOracle) (s : PaintState) (i : Int) :
    (eraseFragment o s i).currentIndex = s.currentIndex ∧
    (eraseFragment o s i).fragments = s.fragments ∧
    (eraseFragment o s i).isErasing = s.isErasing ∧
    (eraseFragment o s i).isPlaying = s.isPlaying ∧
    (eraseFragment o s i).isPaused = s.isPaused ∧
    (eraseFragment o s i).fragmentsPerFrame = s.fragmentsPerFrame := by
  unfold eraseFragment
  exact foldDirect_ctl o _ _

/-- Behavior of the erase loop: the index never increases, never drops
below −1, strictly decreases when the budget is positive and the index
was nonnegative, and the control fields other than the index are
preserved. -/
lemma eraseLoop_spec (o : RendOracle) : ∀ (n : Nat) (s : PaintState),
    (eraseLoop o n s).currentIndex ≤ s.currentIndex ∧
    (-1 ≤ s.currentIndex → -1 ≤ (eraseLoop o n s).currentIndex) ∧
    (1 ≤ n → 0 ≤ s.currentIndex → (eraseLoop o n s).currentIndex < s.currentIndex) ∧
    (eraseLoop o n s).fragments = s.fragments ∧
    (eraseLoop o n s).isErasing = s.isErasing ∧
    (eraseLoop o n s).isPlaying = s.isPlaying ∧
    (eraseLoop o n s).isPaused = s.isPaused ∧
    (eraseLoop o n s).fragmentsPerFrame = s.fragmentsPerFrame := by
  intro n
  induction n with
  | zero => intro s; simp [eraseLoop]
  | succ n ih =>
    intro s
    by_cases h : s.currentIndex < 0
    · simp [eraseLoop, if_pos h]
      omega
    · have hef := eraseFragment_ctl o s s.currentIndex
      set s1 := eraseFragment o s s.currentIndex with hs1
      have ihr := ih { s1 with currentIndex := s1.currentIndex - 1 }
      simp only [eraseLoop, if_neg h]
      rw [← hs1]
      simp only at ihr
      refine ⟨?_, ?_, ?_, ?_, ?_, ?_, ?_, ?_⟩
      · omega
      · intro _; omega
      · intro _ _; omega
      · rw [ihr.2.2.2.1]; exact hef.2.1
      · rw [ihr.2.2.2.2.1]; exact hef.2.2.1
      · rw [ihr.2.2.2.2.2.1]; exact hef.2.2.2.1
      · rw [ihr.2.2.2.2.2.2.1]; exact hef.2.2.2.2.1
      · rw [ihr.2.2.2.2.2.2.2]; exact hef.2.2.2.2.2

/-- Behavior of the column loop: the index advances by at most one (and
never retreats), and fragments/flags are preserved. -/
lemma drawLoop_spec (o : RendOracle) (frag : Fragment) : ∀ (n : Nat) (s : PaintState),
    s.currentIndex ≤ (drawLoop o frag n s).currentIndex ∧
    (drawLoop o frag n s).currentIndex ≤ s.currentIndex + 1 ∧
    (drawLoop o frag n s).fragments = s.fragments ∧
    (drawLoop o frag n s).isErasing = s.isErasing ∧
    (drawLoop o frag n s).isPlaying = s.isPlaying ∧
    (drawLoop o frag n s).isPaused = s.isPaused ∧
    (drawLoop o frag n s).fragmentsPerFrame = s.fragmentsPerFrame := by
  intro n
  induction n with
  | zero => intro s; simp [drawLoop]
  | succ n ih =>
    intro s
    simp only [drawLoop]
    split
    · simp
    · split
      · simp
      · exact ih _

/-- Behavior of the draw branch of a tick: the index never retreats,
advances by at most one, only advances when a fragment is available, and
fragments/flags are preserved. -/
lemma drawTickBody_spec (o : RendOracle) (s : PaintState) :
    s.currentIndex ≤ (drawTickBody o s).currentIndex ∧
    (drawTickBody o s).currentIndex ≤ s.currentIndex + 1 ∧
    (¬ s.currentIndex < (s.fragments.length : Int) →
      (drawTickBody o s).currentIndex = s.currentIndex) ∧
    (drawTickBody o s).fragments = s.fragments ∧
    (drawTickBody o s).isErasing = s.isErasing ∧
    (drawTickBody o s).isPlaying = s.isPlaying ∧
    (drawTickBody o s).isPaused = s.isPaused ∧
    (drawTickBody o s).fragmentsPerFrame = s.fragmentsPerFrame := by
  unfold drawTickBody
  by_cases h : s.currentIndex < (s.fragments.length : Int)
  · simp only [if_pos h]
    split
    · split
      · refine ⟨?_, ?_, fun hc => absurd h hc, ?_, ?_, ?_, ?_, ?_⟩ <;>
          first
            | exact (drawLoop_spec o _ _ _).1
            | exact (drawLoop_spec o _ _ _).2.1
            | exact (drawLoop_spec o _ _ _).2.2.1
            | exact (drawLoop_spec o _ _ _).2.2.2.1
            | exact (drawLoop_spec o _ _ _).2.2.2.2.1
            | exact (drawLoop_spec o _ _ _).2.2.2.2.2.1
            | exact (drawLoop_spec o _ _ _).2.2.2.2.2.2
      · refine ⟨?_, ?_, fun hc => absurd h hc, ?_, ?_, ?_, ?_, ?_⟩ <;>
          first
            | exact (drawLoop_spec o _ _ _).1
            | exact (drawLoop_spec o _ _ _).2.1
            | exact (drawLoop_spec o _ _ _).2.2.1
            | exact (drawLoop_spec o _ _ _).2.2.2.1
            | exact (drawLoop_spec o _ _ _).2.2.2.2.1
            | exact (drawLoop_spec o _ _ _).2.2.2.2.2.1
            | exact (drawLoop_spec o _ _ _).2.2.2.2.2.2
    · refine ⟨?_, ?_, fun hc => absurd h hc, ?_, ?_, ?_, ?_, ?_⟩ <;>
        first
          | exact (drawLoop_spec o _ _ _).1
          | exact (drawLoop_spec o _ _ _).2.1
          | exact (drawLoop_spec o _ _ _).2.2.1
          | exact (drawLoop_spec o _ _ _).2.2.2.1
          | exact (drawLoop_spec o _ _ _).2.2.2.2.1
          | exact (drawLoop_spec o _ _ _).2.2.2.2.2.1
          | exact (drawLoop_spec o _ _ _).2.2.2.2.2.2
  · rw [if_neg h]
    exact ⟨le_refl _, by omega, fun _ => rfl, rfl, rfl, rfl, rfl, rfl⟩

/-- **C5** counterexample: on a processed tick that begins in Erasing with
`currentIndex = 0` (a 1-fragment sequence after `startErasing`), the index
does **not** strictly decrease: the completion path resets it to 0, so it
ends the tick exactly where it started. -/
theorem erase_tick_not_strictly_decreasing :
    c5State.isErasing = true ∧ c5State.isPlaying = true ∧
    c5State.isPaused = false ∧ (16.67 : ℚ) ≤ 100 - c5State.lastFrameTime ∧
    (tick oRend 100 c5State).1.currentIndex = c5State.currentIndex := by
  refine ⟨rfl, rfl, rfl, by norm_num [c5State, initEngine], ?_⟩
  unfold tick
  rw [if_neg (by decide : ¬((!c5State.isPlaying || c5State.isPaused) = true))]
  rw [show c5State.lastFrameTime = 50 from rfl]
  rw [if_neg (by norm_num : ¬((100 : ℚ) - 50 < 16.67))]
  decide

/-- **C5** (amended): across scheduler ticks from any state satisfying the
engine invariant, (i) the index is non-decreasing whenever the tick does
not start in Erasing; (ii) a processed tick that starts in Erasing either
strictly decreases the index or completes erasing, leaving Erasing with
the index reset to 0 (this reset is the one exception to strict decrease);
(iii) every progress notification `(current, total)` satisfies
`0 ≤ current ≤ total`; and (iv) the invariant is preserved, so the
guarantees hold across every sequence of ticks. -/
theorem tick_monotone_and_progress_bounds (o : RendOracle) (now : ℚ)
    (s : PaintState) (hInv : PaintInv s) :
    (s.isErasing = false → s.currentIndex ≤ (tick o now s).1.currentIndex) ∧
    (s.isErasing = true → s.isPlaying = true → s.isPaused = false →
      (16.67 : ℚ) ≤ now - s.lastFrameTime →
      ((tick o now s).1.currentIndex < s.currentIndex ∨
        ((tick o now s).1.isErasing = false ∧
         (tick o now s).1.currentIndex = 0))) ∧
    (∀ c t, PEvent.progress c t ∈ (tick o now s).2 → 0 ≤ c ∧ c ≤ (t : Int)) ∧
    PaintInv (tick o now s).1 := by
  obtain ⟨hfpf, hm1, hlen, hne⟩ := hInv
  unfold tick
  by_cases hg : (!s.isPlaying || s.isPaused) = true
  · rw [if_pos hg]
    refine ⟨fun _ => le_refl _, ?_, ?_, hfpf, hm1, hlen, hne⟩
    · intro _ hp hpa _
      rw [hp, hpa] at hg
      simp at hg
    · intro c t hmem
      simp at hmem
  · rw [if_neg hg]
    by_cases hdt : now - s.lastFrameTime < 16.67
    · rw [if_pos hdt]
      refine ⟨fun _ => le_refl _, ?_, ?_, hfpf, hm1, hlen, hne⟩
      · intro _ _ _ hge
        exact absurd hdt (not_lt.2 hge)
      · intro c t hmem
        simp at hmem
    · rw [if_neg hdt]
      dsimp only
      by_cases he : s.isErasing = true
      · rw [if_pos he]
        obtain ⟨e1, e2, e3, e4, e5, e6, e7, e8⟩ :=
          eraseLoop_spec o s.fragmentsPerFrame {s with lastFrameTime := now}
        have e1' : (eraseLoop o s.fragmentsPerFrame
            {s with lastFrameTime := now}).currentIndex ≤ s.currentIndex := e1
        have e2' : -1 ≤ s.currentIndex → -1 ≤ (eraseLoop o s.fragmentsPerFrame
            {s with lastFrameTime := now}).currentIndex := e2
        have e3' : 1 ≤ s.fragmentsPerFrame → 0 ≤ s.currentIndex →
            (eraseLoop o s.fragmentsPerFrame
              {s with lastFrameTime := now}).currentIndex < s.currentIndex := e3
        have e4' : (eraseLoop o s.fragmentsPerFrame
            {s with lastFrameTime := now}).fragments = s.fragments := e4
        have e5' : (eraseLoop o s.fragmentsPerFrame
            {s with lastFrameTime := now}).isErasing = s.isErasing := e5
        have e8' : (eraseLoop o s.fragmentsPerFrame
            {s with lastFrameTime := now}).fragmentsPerFrame = s.fragmentsPerFrame := e8
        by_cases hlt : (eraseLoop o s.fragmentsPerFrame
            {s with lastFrameTime := now}).currentIndex < 0
        · rw [if_pos hlt]
          dsimp only
          refine ⟨?_, ?_, ?_, ?_⟩
          · intro hfalse; rw [hfalse] at he; simp at he
          · intro _ _ _ _
            exact Or.inr ⟨rfl, rfl⟩
          · intro c t hmem
            simp only [List.mem_append, List.mem_cons,
              List.not_mem_nil, or_false] at hmem
            rcases hmem with hmem | hmem
            · cases hmem
              refine ⟨le_max_left _ _, ?_⟩
              rw [e4']
              omega
            · cases hmem
          · dsimp only [PaintInv]
            rw [e4', e8']
            refine ⟨hfpf, by omega, by omega, fun _ => le_refl _⟩
        · rw [if_neg hlt]
          dsimp only
          have hstrict : (eraseLoop o s.fragmentsPerFrame
              {s with lastFrameTime := now}).currentIndex < s.currentIndex :=
            e3' hfpf (by omega)
          refine ⟨?_, ?_, ?_, ?_⟩
          · intro hfalse; rw [hfalse] at he; simp at he
          · intro _ _ _ _
            exact Or.inl hstrict
          · intro c t hmem
            simp only [List.mem_cons, List.not_mem_nil, or_false] at hmem
            cases hmem
            refine ⟨le_max_left _ _, ?_⟩
            rw [e4']
            omega
          · dsimp only [PaintInv]
            rw [e4', e5', e8']
            refine ⟨hfpf, e2' hm1, by omega, ?_⟩
            intro hfalse
            rw [hfalse] at he
            simp at he
      · rw [if_neg he]
        have hEF : s.isErasing = false := by
          cases hEB : s.isErasing with
          | true => exact absurd hEB he
          | false => rfl
        have h0 : (0 : Int) ≤ s.currentIndex := hne hEF
        obtain ⟨d1, d2, d3, d4, d5, d6, d7, d8⟩ :=
          drawTickBody_spec o {s with lastFrameTime := now}
        have d1' : s.currentIndex ≤
            (drawTickBody o {s with lastFrameTime := now}).currentIndex := d1
        have d2' : (drawTickBody o {s with lastFrameTime := now}).currentIndex
            ≤ s.currentIndex + 1 := d2
        have d3' : ¬(s.currentIndex < (s.fragments.length : Int)) →
            (drawTickBody o {s with lastFrameTime := now}).currentIndex
              = s.currentIndex := d3
        have d4' : (drawTickBody o {s with lastFrameTime := now}).fragments
            = s.fragments := d4
        have d5' : (drawTickBody o {s with lastFrameTime := now}).isErasing
            = s.isErasing := d5
        have d8' : (drawTickBody o {s with lastFrameTime := now}).fragmentsPerFrame
            = s.fragmentsPerFrame := d8
        have hup : (drawTickBody o {s with lastFrameTime := now}).currentIndex
            ≤ (s.fragments.length : Int) := by
          by_cases hin : s.currentIndex < (s.fragments.length : Int)
          · omega
          · have := d3' hin
            omega
        by_cases hc : (((drawTickBody o
            {s with lastFrameTime := now}).fragments.length : Int)) ≤
            (drawTickBody o {s with lastFrameTime := now}).currentIndex
        · rw [if_pos hc]
          dsimp only
          refine ⟨fun _ => d1', fun htrue => absurd htrue he, ?_, ?_⟩
          · intro c t hmem
            simp only [List.mem_append, List.mem_cons,
              List.not_mem_nil, or_false] at hmem
            rcases hmem with hmem | hmem
            · cases hmem
              refine ⟨le_trans h0 d1', ?_⟩
              rw [d4']
              exact hup
            · cases hmem
          · dsimp only [PaintInv]
            rw [d4', d5', d8']
            refine ⟨hfpf, by omega, hup,
              fun _ => le_trans h0 d1'⟩
        · rw [if_neg hc]
          dsimp only
          refine ⟨fun _ => d1', fun htrue => absurd htrue he, ?_, ?_⟩
          · intro c t hmem
            simp only [List.mem_cons, List.not_mem_nil, or_false] at hmem
            cases hmem
            refine ⟨le_trans h0 d1', ?_⟩
            rw [d4']
            exact hup
          · dsimp only [PaintInv]
            rw [d4', d5', d8']
            refine ⟨hfpf, by omega, hup,
              fun _ => le_trans h0 d1'⟩

/-- Witness for `tick_monotone_and_progress_bounds`: the invariant holds at
the concrete erasing state, and the tick lands in the "completes erasing,
index reset to 0" disjunct while preserving the invariant. -/
theorem tick_monotone_and_progress_bounds_witness :
    PaintInv c5State ∧
    ((tick oRend 100 c5State).1.currentIndex < c5State.currentIndex ∨
      ((tick oRend 100 c5State).1.isErasing = false ∧
       (tick oRend 100 c5State).1.currentIndex = 0)) ∧
    PaintInv (tick oRend 100 c5State).1 := by
  have h := tick_monotone_and_progress_bounds oRend 100 c5State (by decide)
  exact ⟨by decide, h.2.1 rfl rfl rfl (by norm_num [c5State, initEngine]), h.2.2.2⟩

/-- The merge loop either ends with no undersized fragment or runs the full
round cap. -/
lemma mergeGo_size_or_cap (sqrtQ : ℚ → ℚ) (tms : ℚ) :
    ∀ (fuel : Nat) (cur : List Fragment),
    (∀ f ∈ (mergeSmallFragmentsGo sqrtQ tms fuel cur).1,
      tms ≤ ((f.width * f.height : Nat) : ℚ)) ∨
    (mergeSmallFragmentsGo sqrtQ tms fuel cur).2 = 5 := by
  intro fuel
  induction fuel with
  | zero => intro cur; exact Or.inr rfl
  | succ fuel ih =>
    intro cur
    rw [mergeSmallFragmentsGo]
    split
    · exact ih _
    · left
      intro f hf
      rename_i h
      simp only [List.any_eq_true, not_exists, not_and] at h
      have := h f hf
      simpa using this

/-- **C4**: For every fragment set given to the Fragment Merger, every
fragment in the returned set has (bounding-box) area at least
`targetMinSize = minSize · 1.5`, OR the merger performed the full round
cap of 5 rounds (fragments still undersized at the cap are kept as-is). -/
theorem mergeSmallFragments_size_or_cap (sqrtQ : ℚ → ℚ)
    (frags : List Fragment) (minSize : Nat) :
    (∀ f ∈ mergeSmallFragments sqrtQ frags minSize,
      ((minSize : ℚ) * 1.5) ≤ ((f.width * f.height : Nat) : ℚ)) ∨
    (mergeSmallFragmentsGo sqrtQ ((minSize : ℚ) * 1.5) 5 frags).2 = 5 :=
  mergeGo_size_or_cap sqrtQ ((minSize : ℚ) * 1.5) 5 frags

/-- Moving the element at index `i` to the front is a permutation. -/
lemma getD_cons_eraseIdx_perm (l : List Fragment) (i : Nat) (h : i < l.length) :
    (l.getD i dFrag :: l.eraseIdx i).Perm l := by
  rw [List.getD_eq_getElem l dFrag h, List.eraseIdx_eq_take_drop_succ]
  have h2 : l.take i ++ l[i] :: l.drop (i + 1) = l := by
    rw [List.getElem_cons_drop, List.take_append_drop]
  have h1 : (l[i] :: (l.take i ++ l.drop (i + 1))).Perm
      (l.take i ++ l[i] :: l.drop (i + 1)) := List.perm_middle.symm
  rw [h2] at h1
  exact h1

/-- The best index returned by the recency-window scan comes either from
the accumulator or is the scanned fragment's own index. -/
lemma scanRecent_index (sq : ℚ → ℚ) (f1 : Fragment) :
    ∀ (recent : List Fragment) (i : Nat) (acc : Option (Nat × ℚ)) (ci : Nat) (m : ℚ),
    scanRecent sq f1 recent i acc = some (ci, m) →
    (∃ m0, acc = some (ci, m0)) ∨ ci = i := by
  intro recent
  induction recent with
  | nil =>
    intro i acc ci m hs
    exact Or.inl ⟨m, hs⟩
  | cons rf recent ih =>
    intro i acc ci m hs
    simp only [scanRecent, List.foldl_cons] at hs ⊢
    have step := ih i _ ci m hs
    rcases step with ⟨m0, hm0⟩ | hi
    · cases acc with
      | none =>
        simp only [Option.some.injEq, Prod.mk.injEq] at hm0
        exact Or.inr hm0.1.symm
      | some p =>
        obtain ⟨pi, pm⟩ := p
        simp only at hm0
        split at hm0
        · simp only [Option.some.injEq, Prod.mk.injEq] at hm0
          exact Or.inr hm0.1.symm
        · simp only [Option.some.injEq, Prod.mk.injEq] at hm0
          obtain ⟨h1, h2⟩ := hm0
          subst h1
          exact Or.inl ⟨pm, rfl⟩
    · exact Or.inr hi

/-- Indices produced by the closest-fragment fold stay below the running
counter plus the number of scanned fragments. -/
lemma findClosest_fold_lt (sq : ℚ → ℚ) (recent : List Fragment) :
    ∀ (rem : List Fragment) (k : Nat) (acc : Option (Nat × ℚ)),
    (∀ ci m, acc = some (ci, m) → ci < k) →
    ∀ ci m,
      (rem.foldl (fun (st : Nat × Option (Nat × ℚ)) f1 =>
        (st.1 + 1, scanRecent sq f1 recent st.1 st.2)) (k, acc)).2 = some (ci, m) →
      ci < k + rem.length := by
  intro rem
  induction rem with
  | nil =>
    intro k acc hacc ci m h
    simpa using hacc ci m h
  | cons f rem ih =>
    intro k acc hacc ci m h
    simp only [List.foldl_cons] at h
    have hres := ih (k + 1) (scanRecent sq f recent k acc) ?_ ci m h
    · simp only [List.length_cons]
      omega
    · intro ci' m' hs
      rcases scanRecent_index sq f recent k acc ci' m' hs with ⟨m0, hm0⟩ | hk
      · exact lt_trans (hacc ci' m0 hm0) (Nat.lt_succ_self k)
      · rw [hk]; exact Nat.lt_succ_self k

/-- The closest-fragment search returns an in-range index. -/
lemma findClosest_lt (sq : ℚ → ℚ) (recent remaining : List Fragment) (ci : Nat)
    (h : findClosest sq recent remaining = some ci) : ci < remaining.length := by
  unfold findClosest at h
  rcases hopt : (remaining.foldl (fun (st : Nat × Option (Nat × ℚ)) f1 =>
      (st.1 + 1, scanRecent sq f1 recent st.1 st.2)) (0, none)).2 with _ | p
  · rw [hopt] at h; simp at h
  · rw [hopt] at h
    simp only [Option.map] at h
    have hlt := findClosest_fold_lt sq recent remaining 0 none
      (by intro _ _ hc; simp at hc) p.1 p.2 (by rw [hopt])
    have hp : p.1 = ci := Option.some.inj h
    rw [← hp]
    simpa using hlt

/-- The sequencing loop, run with fuel equal to the number of remaining
fragments, returns a permutation of `sorted ++ remaining`. -/
lemma sortGo_perm (sq : ℚ → ℚ) :
    ∀ (fuel : Nat) (sorted recent remaining : List Fragment),
    fuel = remaining.length →
    (sortGo sq fuel sorted recent remaining).Perm (sorted ++ remaining) := by
  intro fuel
  induction fuel with
  | zero =>
    intro sorted recent remaining hf
    have h0 : remaining = [] := List.length_eq_zero.mp hf.symm
    subst h0
    show sorted.Perm (sorted ++ [])
    simp
  | succ fuel ih =>
    intro sorted recent remaining hf
    have hne : remaining.isEmpty = false := by
      cases remaining with
      | nil => simp at hf
      | cons a l => rfl
    rw [sortGo, hne]
    simp only [Bool.false_eq_true, if_false]
    rcases hfc : findClosest sq recent remaining with _ | ci
    all_goals dsimp only
    · have hlen0 : 0 < remaining.length := by omega
      have hlen : fuel = (remaining.eraseIdx 0).length := by
        have := List.length_eraseIdx_add_one hlen0
        omega
      have hperm := ih (sorted ++ [remaining.getD 0 dFrag])
        (pushRecent recent (remaining.getD 0 dFrag)) (remaining.eraseIdx 0) hlen
      refine hperm.trans ?_
      rw [List.append_assoc]
      exact (getD_cons_eraseIdx_perm remaining 0 hlen0).append_left sorted
    · have hci : ci < remaining.length := findClosest_lt sq recent remaining ci hfc
      have hlen : fuel = (remaining.eraseIdx ci).length := by
        have := List.length_eraseIdx_add_one hci
        omega
      have hperm := ih (sorted ++ [remaining.getD ci dFrag])
        (pushRecent recent (remaining.getD ci dFrag)) (remaining.eraseIdx ci) hlen
      refine hperm.trans ?_
      rw [List.append_assoc]
      exact (getD_cons_eraseIdx_perm remaining ci hci).append_left sorted

/-- The sequencing loop only ever appends: its output extends `sorted`. -/
lemma sortGo_prefix (sq : ℚ → ℚ) :
    ∀ (fuel : Nat) (sorted recent remaining : List Fragment),
    ∃ t, sortGo sq fuel sorted recent remaining = sorted ++ t := by
  intro fuel
  induction fuel with
  | zero =>
    intro sorted recent remaining
    exact ⟨[], by simp [sortGo]⟩
  | succ fuel ih =>
    intro sorted recent remaining
    rw [sortGo]
    by_cases hne : remaining.isEmpty
    · rw [hne]
      exact ⟨[], by simp⟩
    · rw [Bool.of_not_eq_true hne]
      simp only [Bool.false_eq_true, if_false]
      rcases hfc : findClosest sq recent remaining with _ | ci
      all_goals dsimp only
      · obtain ⟨t, ht⟩ := ih (sorted ++ [remaining.getD 0 dFrag])
          (pushRecent recent (remaining.getD 0 dFrag)) (remaining.eraseIdx 0)
        exact ⟨[remaining.getD 0 dFrag] ++ t, by rw [ht, List.append_assoc]⟩
      · obtain ⟨t, ht⟩ := ih (sorted ++ [remaining.getD ci dFrag])
          (pushRecent recent (remaining.getD ci dFrag)) (remaining.eraseIdx ci)
        exact ⟨[remaining.getD ci dFrag] ++ t, by rw [ht, List.append_assoc]⟩

/-- Invariant of the brightest-fragment scan (`imageAnalyzer.js` lines
701-706), folded from position `k`: the tracked index stays in range, its
brightness is the running maximum of everything seen, and every index
strictly before the tracked one is strictly dimmer (first occurrence of
the maximum wins). -/
lemma brightest_fold_spec (l : List Fragment) :
    ∀ (n k bi : Nat) (mB : ℚ),
    n = l.length - k →
    bi < k → k ≤ l.length →
    mB = (l.getD bi dFrag).brightness →
    (∀ j, j < k → (l.getD j dFrag).brightness ≤ mB) →
    (∀ j, j < bi → (l.getD j dFrag).brightness < mB) →
    ((l.drop k).foldl
      (fun (st : Nat × ℚ × Nat) f =>
        if st.2.1 < f.brightness then (st.2.2, f.brightness, st.2.2 + 1)
        else (st.1, st.2.1, st.2.2 + 1)) (bi, mB, k)).1 < l.length ∧
    ((l.drop k).foldl
      (fun (st : Nat × ℚ × Nat) f =>
        if st.2.1 < f.brightness then (st.2.2, f.brightness, st.2.2 + 1)
        else (st.1, st.2.1, st.2.2 + 1)) (bi, mB, k)).2.1 =
      (l.getD ((l.drop k).foldl
        (fun (st : Nat × ℚ × Nat) f =>
          if st.2.1 < f.brightness then (st.2.2, f.brightness, st.2.2 + 1)
          else (st.1, st.2.1, st.2.2 + 1)) (bi, mB, k)).1 dFrag).brightness ∧
    (∀ j, j < l.length → (l.getD j dFrag).brightness ≤
      ((l.drop k).foldl
        (fun (st : Nat × ℚ × Nat) f =>
          if st.2.1 < f.brightness then (st.2.2, f.brightness, st.2.2 + 1)
          else (st.1, st.2.1, st.2.2 + 1)) (bi, mB, k)).2.1) ∧
    (∀ j, j < ((l.drop k).foldl
        (fun (st : Nat × ℚ × Nat) f =>
          if st.2.1 < f.brightness then (st.2.2, f.brightness, st.2.2 + 1)
          else (st.1, st.2.1, st.2.2 + 1)) (bi, mB, k)).1 →
      (l.getD j dFrag).brightness <
      ((l.drop k).foldl
        (fun (st : Nat × ℚ × Nat) f =>
          if st.2.1 < f.brightness then (st.2.2, f.brightness, st.2.2 + 1)
          else (st.1, st.2.1, st.2.2 + 1)) (bi, mB, k)).2.1) := by
  intro n
  induction n with
  | zero =>
    intro k bi mB hn hbik hkl hmB hle hlt
    have hk : l.length ≤ k := by omega
    rw [List.drop_eq_nil_of_le hk]
    simp only [List.foldl_nil]
    exact ⟨by omega, hmB, fun j hj => hle j (by omega), hlt⟩
  | succ n ih =>
    intro k bi mB hn hbik hkl hmB hle hlt
    have hklt : k < l.length := by omega
    rw [(List.getElem_cons_drop l k hklt).symm, List.foldl_cons]
    by_cases hcmp : mB < l[k].brightness
    · rw [if_pos hcmp]
      refine ih (k + 1) k l[k].brightness (by omega) (by omega) (by omega)
        (by rw [List.getD_eq_getElem l dFrag hklt]) ?_ ?_
      · intro j hj
        rcases Nat.lt_succ_iff_lt_or_eq.mp hj with hj | hj
        · exact le_of_lt (lt_of_le_of_lt (hle j hj) hcmp)
        · rw [hj, List.getD_eq_getElem l dFrag hklt]
      · intro j hj
        exact lt_of_le_of_lt (hle j hj) hcmp
    · rw [if_neg hcmp]
      refine ih (k + 1) bi mB (by omega) (by omega) (by omega) hmB ?_ hlt
      intro j hj
      rcases Nat.lt_succ_iff_lt_or_eq.mp hj with hj | hj
      · exact hle j hj
      · rw [hj, List.getD_eq_getElem l dFrag hklt]
        exact not_lt.mp hcmp

/-- The brightest-fragment scan returns an in-range index whose brightness
is the maximum over the list, with the first occurrence winning ties. -/
lemma findBrightestIdx_spec (fragments : List Fragment) (h : fragments ≠ []) :
    findBrightestIdx fragments < fragments.length ∧
    (∀ f ∈ fragments, f.brightness ≤
      (fragments.getD (findBrightestIdx fragments) dFrag).brightness) ∧
    (∀ j, j < findBrightestIdx fragments →
      (fragments.getD j dFrag).brightness <
        (fragments.getD (findBrightestIdx fragments) dFrag).brightness) := by
  cases hl : fragments with
  | nil => exact absurd hl h
  | cons f0 rest =>
    have hrest : rest = (f0 :: rest).drop 1 := rfl
    have hb0 : f0.brightness = ((f0 :: rest).getD 0 dFrag).brightness := rfl
    have hspec := brightest_fold_spec (f0 :: rest) ((f0 :: rest).length - 1) 1 0
      f0.brightness rfl (by omega) (by simp) hb0
      (by
        intro j hj
        interval_cases j
        exact le_refl _)
      (by intro j hj; omega)
    rw [← hrest] at hspec
    have hfb : findBrightestIdx (f0 :: rest) =
        (rest.foldl
          (fun (st : Nat × ℚ × Nat) f =>
            if st.2.1 < f.brightness then (st.2.2, f.brightness, st.2.2 + 1)
            else (st.1, st.2.1, st.2.2 + 1)) (0, f0.brightness, 1)).1 := rfl
    refine ⟨by rw [hfb]; exact hspec.1, ?_, ?_⟩
    · intro f hf
      obtain ⟨i, hi, hfi⟩ := List.getElem_of_mem hf
      have := hspec.2.2.1 i hi
      rw [List.getD_eq_getElem _ dFrag hi, hfi] at this
      rw [hfb]
      rw [← hspec.2.1] at *
      exact this
    · intro j hj
      rw [hfb] at hj ⊢
      have := hspec.2.2.2 j hj
      rw [← hspec.2.1]
      exact this

/-- **C3**: For every non-empty fragment set, the Spatial Sequencer's
output is a permutation of its input (equal length, no duplicates, no
omissions — `List.Perm` states exactly multiset equality), and the first
element of the output is the fragment of maximum brightness, the first
occurrence winning brightness ties (every index before the chosen one is
strictly dimmer). -/
theorem sortFragmentsSpatially_perm_and_brightest (sqrtQ : ℚ → ℚ)
    (fragments : List Fragment) (h : fragments ≠ []) :
    (sortFragmentsSpatially sqrtQ fragments).Perm fragments ∧
    (sortFragmentsSpatially sqrtQ fragments).head? =
      some (fragments.getD (findBrightestIdx fragments) dFrag) ∧
    (∀ f ∈ fragments, f.brightness ≤
      (fragments.getD (findBrightestIdx fragments) dFrag).brightness) ∧
    (∀ j, j < findBrightestIdx fragments →
      (fragments.getD j dFrag).brightness <
        (fragments.getD (findBrightestIdx fragments) dFrag).brightness) := by
  have hbs := findBrightestIdx_spec fragments h
  have hie : fragments.isEmpty = false := by
    cases fragments with
    | nil => exact absurd rfl h
    | cons a l => rfl
  unfold sortFragmentsSpatially
  rw [hie]
  simp only [Bool.false_eq_true, if_false]
  refine ⟨?_, ?_, hbs.2.1, hbs.2.2⟩
  · have hperm := sortGo_perm sqrtQ
      (fragments.eraseIdx (findBrightestIdx fragments)).length
      [fragments.getD (findBrightestIdx fragments) dFrag]
      [fragments.getD (findBrightestIdx fragments) dFrag]
      (fragments.eraseIdx (findBrightestIdx fragments)) rfl
    refine hperm.trans ?_
    exact getD_cons_eraseIdx_perm fragments _ hbs.1
  · obtain ⟨t, ht⟩ := sortGo_prefix sqrtQ
      (fragments.eraseIdx (findBrightestIdx fragments)).length
      [fragments.getD (findBrightestIdx fragments) dFrag]
      [fragments.getD (findBrightestIdx fragments) dFrag]
      (fragments.eraseIdx (findBrightestIdx fragments))
    rw [ht]
    rfl

/-- Witness for `sortFragmentsSpatially_perm_and_brightest` on a concrete
3-fragment list. -/
theorem sortFragmentsSpatially_witness :
    (sortFragmentsSpatially id c3Frags).Perm c3Frags ∧
    (sortFragmentsSpatially id c3Frags).head? =
      some (c3Frags.getD (findBrightestIdx c3Frags) dFrag) ∧
    (∀ f ∈ c3Frags, f.brightness ≤
      (c3Frags.getD (findBrightestIdx c3Frags) dFrag).brightness) ∧
    (∀ j, j < findBrightestIdx c3Frags →
      (c3Frags.getD j dFrag).brightness <
        (c3Frags.getD (findBrightestIdx c3Frags) dFrag).brightness) :=
  sortFragmentsSpatially_perm_and_brightest id c3Frags (by simp [c3Frags])

/-- **C7** counterexample: merging two overlapping 1×1 members, both
non-transparent at the same position, the merged buffer holds the **later**
member's pixel, not the earlier one's — "earlier members win ties" fails. -/
theorem mergeGroup_later_member_wins :
    (c7A.imageData (0, 0)).a ≠ 0 ∧ (c7B.imageData (0, 0)).a ≠ 0 ∧
    ((mergeFragmentGroup [c7A, c7B]).getD dFrag).imageData (0, 0) =
      c7B.imageData (0, 0) ∧
    ((mergeFragmentGroup [c7A, c7B]).getD dFrag).imageData (0, 0) ≠
      c7A.imageData (0, 0) := by
  decide

/-- Pointwise effect of the inner copy loop over the first `n` columns of
row `y` of member `f`: position `q` holds `f`'s pixel if some column of
the processed range writes there non-transparently, and is untouched
otherwise. -/
lemma copyRow_buf_aux (minX minY : Nat) (f : Fragment) (y : Nat) :
    ∀ (n : Nat) (st : CopySt) (q : Nat × Nat),
    (((List.range n).foldl
      (fun st x =>
        let src := f.imageData (x, y)
        if 0 < src.a then
          { buf := fun q => if q = (f.x - minX + x, f.y - minY + y) then src else st.buf q
            tb := st.tb + lum src
            pc := st.pc + 1 }
        else st)
      st).buf) q =
    if f.x - minX ≤ q.1 ∧ q.1 < f.x - minX + n ∧ q.2 = f.y - minY + y ∧
        0 < (f.imageData (q.1 - (f.x - minX), y)).a then
      f.imageData (q.1 - (f.x - minX), y)
    else st.buf q := by
  intro n
  induction n with
  | zero =>
    intro st q
    rw [if_neg]
    · rfl
    · rintro ⟨h1, h2, -, -⟩
      omega
  | succ n ih =>
    intro st q
    rw [List.range_succ, List.foldl_append, List.foldl_cons, List.foldl_nil]
    dsimp only
    by_cases ha : 0 < (f.imageData (n, y)).a
    · rw [if_pos ha]
      dsimp only
      by_cases hq : q = (f.x - minX + n, f.y - minY + y)
      · rw [if_pos hq]
        subst hq
        rw [if_pos ?hc]
        case hc =>
          refine ⟨by dsimp only; omega, by dsimp only; omega, rfl, ?_⟩
          dsimp only
          rw [show f.x - minX + n - (f.x - minX) = n from by omega]
          exact ha
        dsimp only
        rw [show f.x - minX + n - (f.x - minX) = n from by omega]
      · rw [if_neg hq, ih st q]
        by_cases hc : f.x - minX ≤ q.1 ∧ q.1 < f.x - minX + n ∧
            q.2 = f.y - minY + y ∧ 0 < (f.imageData (q.1 - (f.x - minX), y)).a
        · rw [if_pos hc, if_pos ⟨hc.1, by omega, hc.2.2⟩]
        · rw [if_neg hc, if_neg ?h2]
          case h2 =>
            rintro ⟨h1, h2, h3, h4⟩
            apply hc
            refine ⟨h1, ?_, h3, h4⟩
            by_contra hlt
            have hq1 : q.1 = f.x - minX + n := by omega
            exact hq (Prod.ext hq1 h3)
    · rw [if_neg ha, ih st q]
      by_cases hc : f.x - minX ≤ q.1 ∧ q.1 < f.x - minX + n ∧
          q.2 = f.y - minY + y ∧ 0 < (f.imageData (q.1 - (f.x - minX), y)).a
      · rw [if_pos hc, if_pos ⟨hc.1, by omega, hc.2.2⟩]
      · rw [if_neg hc, if_neg ?h3]
        case h3 =>
          rintro ⟨h1, h2, h3, h4⟩
          apply hc
          refine ⟨h1, ?_, h3, h4⟩
          by_contra hlt
          have hq1 : q.1 = f.x - minX + n := by omega
          rw [hq1, show f.x - minX + n - (f.x - minX) = n from by omega] at h4
          exact ha h4

/-- Pointwise effect of `copyRow`. -/
lemma copyRow_buf (minX minY : Nat) (f : Fragment) (y : Nat) (st : CopySt)
    (q : Nat × Nat) :
    (copyRow minX minY f y st).buf q =
    if f.x - minX ≤ q.1 ∧ q.1 < f.x - minX + f.width ∧ q.2 = f.y - minY + y ∧
        0 < (f.imageData (q.1 - (f.x - minX), y)).a then
      f.imageData (q.1 - (f.x - minX), y)
    else st.buf q :=
  copyRow_buf_aux minX minY f y f.width st q

/-- Pointwise effect of copying the first `n` rows of member `f`. -/
lemma copyMember_buf_aux (minX minY : Nat) (f : Fragment) :
    ∀ (n : Nat) (st : CopySt) (q : Nat × Nat),
    (((List.range n).foldl (fun st y => copyRow minX minY f y st) st).buf) q =
    if f.x - minX ≤ q.1 ∧ q.1 < f.x - minX + f.width ∧
        f.y - minY ≤ q.2 ∧ q.2 < f.y - minY + n ∧
        0 < (f.imageData (q.1 - (f.x - minX), q.2 - (f.y - minY))).a then
      f.imageData (q.1 - (f.x - minX), q.2 - (f.y - minY))
    else st.buf q := by
  intro n
  induction n with
  | zero =>
    intro st q
    rw [if_neg]
    · rfl
    · rintro ⟨-, -, h3, h4, -⟩
      omega
  | succ n ih =>
    intro st q
    rw [List.range_succ, List.foldl_append, List.foldl_cons, List.foldl_nil]
    rw [copyRow_buf minX minY f n _ q]
    by_cases hrow : f.x - minX ≤ q.1 ∧ q.1 < f.x - minX + f.width ∧
        q.2 = f.y - minY + n ∧ 0 < (f.imageData (q.1 - (f.x - minX), n)).a
    · rw [if_pos hrow, if_pos ?hm]
      case hm =>
        refine ⟨hrow.1, hrow.2.1, by omega, by omega, ?_⟩
        rw [show q.2 - (f.y - minY) = n from by omega]
        exact hrow.2.2.2
      rw [show q.2 - (f.y - minY) = n from by omega]
    · rw [if_neg hrow, ih st q]
      by_cases hc : f.x - minX ≤ q.1 ∧ q.1 < f.x - minX + f.width ∧
          f.y - minY ≤ q.2 ∧ q.2 < f.y - minY + n ∧
          0 < (f.imageData (q.1 - (f.x - minX), q.2 - (f.y - minY))).a
      · rw [if_pos hc, if_pos ⟨hc.1, hc.2.1, hc.2.2.1, by omega, hc.2.2.2.2⟩]
      · rw [if_neg hc, if_neg ?h2]
        case h2 =>
          rintro ⟨h1, h2, h3, h4, h5⟩
          by_cases hq2 : q.2 = f.y - minY + n
          · apply hrow
            refine ⟨h1, h2, hq2, ?_⟩
            rw [show q.2 - (f.y - minY) = n from by omega] at h5
            exact h5
          · exact hc ⟨h1, h2, h3, by omega, h5⟩

/-- Pointwise effect of `copyMember`: the merged buffer holds `f`'s pixel
wherever `f` writes non-transparently, and is untouched elsewhere. -/
lemma copyMember_buf (minX minY : Nat) (f : Fragment) (st : CopySt) (q : Nat × Nat) :
    (copyMember minX minY st f).buf q =
    if memHit minX minY f q then memPix minX minY f q else st.buf q :=
  copyMember_buf_aux minX minY f f.height st q

/-- Pointwise effect of copying a whole member list: a left fold of
last-writer-wins updates. -/
lemma mergeCopy_buf (minX minY : Nat) :
    ∀ (g : List Fragment) (st : CopySt) (q : Nat × Nat),
    ((g.foldl (copyMember minX minY) st).buf) q =
    g.foldl (fun acc f => if memHit minX minY f q then memPix minX minY f q else acc)
      (st.buf q) := by
  intro g
  induction g with
  | nil => intro st q; rfl
  | cons f g ih =>
    intro st q
    rw [List.foldl_cons, List.foldl_cons, ih, copyMember_buf]

/-- Accumulator effect of one row copy: luminance and count advance by the
row's totals. -/
lemma copyRow_acc_aux (minX minY : Nat) (f : Fragment) (y : Nat) :
    ∀ (n : Nat) (st : CopySt),
    (((List.range n).foldl
      (fun st x =>
        let src := f.imageData (x, y)
        if 0 < src.a then
          { buf := fun q => if q = (f.x - minX + x, f.y - minY + y) then src else st.buf q
            tb := st.tb + lum src
            pc := st.pc + 1 }
        else st)
      st).tb =
      st.tb + (List.range n).foldl
        (fun a x => if 0 < (f.imageData (x, y)).a then a + lum (f.imageData (x, y)) else a) 0) ∧
    (((List.range n).foldl
      (fun st x =>
        let src := f.imageData (x, y)
        if 0 < src.a then
          { buf := fun q => if q = (f.x - minX + x, f.y - minY + y) then src else st.buf q
            tb := st.tb + lum src
            pc := st.pc + 1 }
        else st)
      st).pc =
      st.pc + (List.range n).foldl
        (fun a x => if 0 < (f.imageData (x, y)).a then a + 1 else a) 0) := by
  intro n
  induction n with
  | zero =>
    intro st
    constructor
    · show st.tb = st.tb + 0
      rw [add_zero]
    · rfl
  | succ n ih =>
    intro st
    rw [List.range_succ, List.foldl_append, List.foldl_append,
      List.foldl_append, List.foldl_cons, List.foldl_cons, List.foldl_cons,
      List.foldl_nil, List.foldl_nil, List.foldl_nil]
    dsimp only
    by_cases ha : 0 < (f.imageData (n, y)).a
    · rw [if_pos ha, if_pos ha, if_pos ha]
      dsimp only
      constructor
      · rw [(ih st).1, add_assoc]
      · rw [(ih st).2, Nat.add_assoc]
    · rw [if_neg ha, if_neg ha, if_neg ha]
      exact ih st

/-- `copyRow` adds the row's luminance total and pixel count. -/
lemma copyRow_acc (minX minY : Nat) (f : Fragment) (y : Nat) (st : CopySt) :
    (copyRow minX minY f y st).tb = st.tb + rowLum f y ∧
    (copyRow minX minY f y st).pc = st.pc + rowCount f y :=
  copyRow_acc_aux minX minY f y f.width st

/-- Copying the first `n` rows adds their luminance totals and counts. -/
lemma copyMember_acc_aux (minX minY : Nat) (f : Fragment) :
    ∀ (n : Nat) (st : CopySt),
    (((List.range n).foldl (fun st y => copyRow minX minY f y st) st).tb =
      st.tb + (List.range n).foldl (fun a y => a + rowLum f y) 0) ∧
    (((List.range n).foldl (fun st y => copyRow minX minY f y st) st).pc =
      st.pc + (List.range n).foldl (fun a y => a + rowCount f y) 0) := by
  intro n
  induction n with
  | zero =>
    intro st
    constructor
    · show st.tb = st.tb + 0
      rw [add_zero]
    · rfl
  | succ n ih =>
    intro st
    rw [List.range_succ, List.foldl_append, List.foldl_append,
      List.foldl_append, List.foldl_cons, List.foldl_cons, List.foldl_cons,
      List.foldl_nil, List.foldl_nil, List.foldl_nil]
    constructor
    · rw [(copyRow_acc minX minY f n _).1, (ih st).1, add_assoc]
    · rw [(copyRow_acc minX minY f n _).2, (ih st).2, Nat.add_assoc]

/-- `copyMember` adds the member's luminance total and pixel count. -/
lemma copyMember_acc (minX minY : Nat) (f : Fragment) (st : CopySt) :
    (copyMember minX minY st f).tb = st.tb + memberLum f ∧
    (copyMember minX minY st f).pc = st.pc + memberCount f :=
  copyMember_acc_aux minX minY f f.height st

/-- Folding `+ memberLum` from any base. -/
lemma groupLum_shift : ∀ (g : List Fragment) (a : ℚ),
    g.foldl (fun a f => a + memberLum f) a = a + groupLum g := by
  intro g
  induction g with
  | nil => intro a; show a = a + 0; rw [add_zero]
  | cons f g ih =>
    intro a
    rw [List.foldl_cons, ih]
    show a + memberLum f + groupLum g = a + groupLum (f :: g)
    rw [show groupLum (f :: g) = (0 + memberLum f) + groupLum g from
      by rw [groupLum, List.foldl_cons, ih]]
    ring

/-- Folding `+ memberCount` from any base. -/
lemma groupCount_shift : ∀ (g : List Fragment) (a : Nat),
    g.foldl (fun a f => a + memberCount f) a = a + groupCount g := by
  intro g
  induction g with
  | nil => intro a; rfl
  | cons f g ih =>
    intro a
    rw [List.foldl_cons, ih]
    rw [show groupCount (f :: g) = (0 + memberCount f) + groupCount g from
      by rw [groupCount, List.foldl_cons, ih]]
    omega

/-- Copying a whole member list adds the group's luminance total and copy
count. -/
lemma mergeCopy_acc (minX minY : Nat) :
    ∀ (g : List Fragment) (st : CopySt),
    ((g.foldl (copyMember minX minY) st).tb = st.tb + groupLum g) ∧
    ((g.foldl (copyMember minX minY) st).pc = st.pc + groupCount g) := by
  intro g
  induction g with
  | nil =>
    intro st
    constructor
    · show st.tb = st.tb + 0
      rw [add_zero]
    · rfl
  | cons f g ih =>
    intro st
    rw [List.foldl_cons]
    constructor
    · rw [(ih _).1, (copyMember_acc minX minY f st).1]
      rw [show groupLum (f :: g) = (0 + memberLum f) + groupLum g from
        by rw [groupLum, List.foldl_cons, groupLum_shift]]
      ring
    · rw [(ih _).2, (copyMember_acc minX minY f st).2]
      rw [show groupCount (f :: g) = (0 + memberCount f) + groupCount g from
        by rw [groupCount, List.foldl_cons, groupCount_shift]]
      omega

/-- **C7** (amended): when the Fragment Merger materializes a group of two
or more fragments, the merged pixel buffer holds, at every position, the
pixel of the **last** member (in group order) with a non-transparent pixel
there — later members win ties on overlap — and the merged brightness is
the pixel-count-weighted mean over all copy operations (copies later
overwritten included), falling back to the first member's brightness when
nothing was copied. -/
theorem mergeFragmentGroup_last_writer_and_brightness (f0 f1 : Fragment)
    (fs : List Fragment) (q : Nat × Nat) :
    ((mergeFragmentGroup (f0 :: f1 :: fs)).getD dFrag).imageData q =
      lastWriterPixel (groupMinX (f0 :: f1 :: fs) f0.x)
        (groupMinY (f0 :: f1 :: fs) f0.y) (f0 :: f1 :: fs) q ∧
    ((mergeFragmentGroup (f0 :: f1 :: fs)).getD dFrag).brightness =
      (if 0 < groupCount (f0 :: f1 :: fs) then
        groupLum (f0 :: f1 :: fs) / (groupCount (f0 :: f1 :: fs) : ℚ)
      else f0.brightness) := by
  have hbuf := mergeCopy_buf (groupMinX (f0 :: f1 :: fs) f0.x)
    (groupMinY (f0 :: f1 :: fs) f0.y) (f0 :: f1 :: fs) ⟨fun _ => RGBA.clear, 0, 0⟩ q
  have hacc := mergeCopy_acc (groupMinX (f0 :: f1 :: fs) f0.x)
    (groupMinY (f0 :: f1 :: fs) f0.y) (f0 :: f1 :: fs) ⟨fun _ => RGBA.clear, 0, 0⟩
  constructor
  · show ((f0 :: f1 :: fs).foldl
      (copyMember (groupMinX (f0 :: f1 :: fs) f0.x) (groupMinY (f0 :: f1 :: fs) f0.y))
      ⟨fun _ => RGBA.clear, 0, 0⟩).buf q = _
    rw [hbuf]
    rfl
  · show (if 0 < ((f0 :: f1 :: fs).foldl
        (copyMember (groupMinX (f0 :: f1 :: fs) f0.x) (groupMinY (f0 :: f1 :: fs) f0.y))
        ⟨fun _ => RGBA.clear, 0, 0⟩).pc then _ / _ else f0.brightness) = _
    rw [hacc.2, hacc.1]
    simp only [Nat.zero_add, zero_add]

/-- Each seeded-pass cell grows its region against a discarded copy of the
visited map, so the fold never changes it. -/
lemma seededFold_visited (img : Img) (o : GenOracle) (minSize maxSize : Nat) :
    ∀ (cells : List (Nat × Nat)) (st : GenSt),
    (cells.foldl (seededStep img o minSize maxSize) st).visited = st.visited := by
  intro cells
  induction cells with
  | nil => intro st; rfl
  | cons c cells ih =>
    intro st
    rw [List.foldl_cons, ih]
    rfl

/-- **C2**: the seeded pass leaves the shared `visited` map exactly as it
received it — in `createOrganicFragments` the fill pass therefore starts
from an all-unclaimed map, and its regions are grown with no knowledge of
which pixels the seeded pass claimed.  (The fill fragments are thus *not*
disjoint from seeded-pass pixels: any accepted seeded fragment's pixels
are all re-claimed by fill fragments, contradicting the code's own
"fill ... remaining unvisited pixels" / gap-filling intent.) -/
theorem seededPass_commits_no_claims (img : Img) (o : GenOracle) (st : GenSt) :
    (seededPass img o (minSizeOf img) (maxSizeOf img) (stepOf img) st).visited
      = st.visited :=
  seededFold_visited img o (minSizeOf img) (maxSizeOf img)
    (seedCells img.width img.height (stepOf img)) st

/-- Structural invariants of the flood-fill loop: the pixel list only
grows; the visited map only grows, and grows only at accepted pixels; all
result pixels are marked visited; pixels stay inside the (growing) bounds
and inside the image; the bounds' lower corners stay nonnegative. -/
lemma growLoop_inv (W H maxSize : Nat) (brush : Int → Int → Bool)
    (shufR : Nat → Nat → Nat) (sx sy : Nat) :
    ∀ (N : Nat) (queue : List (Int × Int)) (visited : Nat × Nat → Bool)
      (pixels : List (Nat × Nat)) (mnX mnY mxX mxY : Int) (sc : Nat) (g : GrowOut),
      8 * (maxSize - pixels.length) + queue.length ≤ N →
      growLoop W H maxSize brush shufR sx sy queue visited pixels mnX mnY mxX mxY sc = g →
      (∃ t, g.pixels = pixels ++ t) ∧
      (∀ p, visited p = true → g.visited p = true) ∧
      (∀ p, g.visited p = true → visited p = true ∨ p ∈ g.pixels) ∧
      ((∀ p ∈ pixels, visited p = true) → ∀ p ∈ g.pixels, g.visited p = true) ∧
      ((∀ p ∈ pixels, inBnds mnX mnY mxX mxY p ∧ p.1 < W ∧ p.2 < H) →
        ∀ p ∈ g.pixels, inBnds g.mnX g.mnY g.mxX g.mxY p ∧ p.1 < W ∧ p.2 < H) ∧
      (0 ≤ mnX ∧ 0 ≤ mnY → 0 ≤ g.mnX ∧ 0 ≤ g.mnY) := by
  intro N
  induction N with
  | zero =>
    intro queue visited pixels mnX mnY mxX mxY sc g hN hg
    have hq : queue = [] := by
      cases queue with
      | nil => rfl
      | cons a l =>
        exfalso
        simp only [List.length_cons] at hN
        omega
    subst hq
    rw [growLoop] at hg
    subst hg
    exact ⟨⟨[], by simp⟩, fun p hp => hp, fun p hp => Or.inl hp,
      fun h p hp => h p hp, fun h p hp => h p hp, fun h => h⟩
  | succ N ih =>
    intro queue visited pixels mnX mnY mxX mxY sc g hN hg
    cases queue with
    | nil =>
      rw [growLoop] at hg
      subst hg
      exact ⟨⟨[], by simp⟩, fun p hp => hp, fun p hp => Or.inl hp,
        fun h p hp => h p hp, fun h p hp => h p hp, fun h => h⟩
    | cons xy rest =>
      obtain ⟨x, y⟩ := xy
      rw [growLoop] at hg
      by_cases hstop : maxSize ≤ pixels.length
      · rw [dif_pos hstop] at hg
        subst hg
        exact ⟨⟨[], by simp⟩, fun p hp => hp, fun p hp => Or.inl hp,
          fun h p hp => h p hp, fun h p hp => h p hp, fun h => h⟩
      · rw [dif_neg hstop] at hg
        by_cases hob : x < 0 ∨ (W : Int) ≤ x ∨ y < 0 ∨ (H : Int) ≤ y
        · rw [if_pos hob] at hg
          exact ih rest visited pixels mnX mnY mxX mxY sc g
            (by simp only [List.length_cons] at hN; omega) hg
        · rw [if_neg hob] at hg
          by_cases hv : visited (x.toNat, y.toNat)
          · rw [if_pos hv] at hg
            exact ih rest visited pixels mnX mnY mxX mxY sc g
              (by simp only [List.length_cons] at hN; omega) hg
          · rw [if_neg hv] at hg
            by_cases hb : ¬ brush (x - (sx : Int)) (y - (sy : Int))
            · rw [if_pos hb] at hg
              exact ih rest visited pixels mnX mnY mxX mxY sc g
                (by simp only [List.length_cons] at hN; omega) hg
            · rw [if_neg hb] at hg
              dsimp only at hg
              have hx0 : 0 ≤ x := by omega
              have hy0 : 0 ≤ y := by omega
              have hxW : x < (W : Int) := by omega
              have hyH : y < (H : Int) := by omega
              have hlen8 : (fisherYates8 (shufR sc)
                  [(x+1, y), (x-1, y), (x, y+1), (x, y-1),
                   (x+1, y+1), (x-1, y-1), (x+1, y-1), (x-1, y+1)]).length = 8 := by
                simp [fisherYates8, swapP, List.length_set]
              have hmeas : 8 * (maxSize - (pixels ++ [(x.toNat, y.toNat)]).length) +
                  (rest ++ fisherYates8 (shufR sc)
                    [(x+1, y), (x-1, y), (x, y+1), (x, y-1),
                     (x+1, y+1), (x-1, y-1), (x+1, y-1), (x-1, y+1)]).length ≤ N := by
                simp only [List.length_append, List.length_singleton, hlen8]
                simp only [List.length_cons] at hN
                omega
              have hrec := ih _ _ _ (min mnX x) (min mnY y) (max mxX x) (max mxY y)
                (sc + 1) g hmeas hg
              obtain ⟨⟨t, hpre⟩, hmono, hframe, hmarks, hbounds, hnn⟩ := hrec
              have hmemnew : (x.toNat, y.toNat) ∈ g.pixels := by
                rw [hpre]
                simp
              refine ⟨⟨[(x.toNat, y.toNat)] ++ t, by rw [hpre, List.append_assoc]⟩,
                ?_, ?_, ?_, ?_, ?_⟩
              · intro p hp
                apply hmono p
                show (if p = (x.toNat, y.toNat) then true else visited p) = true
                by_cases hpe : p = (x.toNat, y.toNat)
                · rw [if_pos hpe]
                · rw [if_neg hpe]
                  exact hp
              · intro p hp
                rcases hframe p hp with hp2 | hp2
                · have hp2a : (if p = (x.toNat, y.toNat) then true else visited p)
                      = true := hp2
                  by_cases hpe : p = (x.toNat, y.toNat)
                  · exact Or.inr (by rw [hpe]; exact hmemnew)
                  · rw [if_neg hpe] at hp2a
                    exact Or.inl hp2a
                · exact Or.inr hp2
              · intro hall p hp
                refine hmarks ?_ p hp
                intro p2 hp2
                show (if p2 = (x.toNat, y.toNat) then true else visited p2) = true
                by_cases hpe : p2 = (x.toNat, y.toNat)
                · rw [if_pos hpe]
                · rw [if_neg hpe]
                  rcases List.mem_append.mp hp2 with h | h
                  · exact hall p2 h
                  · simp only [List.mem_singleton] at h
                    exact absurd h hpe
              · intro hall p hp
                refine hbounds ?_ p hp
                intro p2 hp2
                rcases List.mem_append.mp hp2 with hp2 | hp2
                · obtain ⟨⟨b1, b2, b3, b4⟩, hiw, hih⟩ := hall p2 hp2
                  exact ⟨⟨by omega, by omega, by omega, by omega⟩, hiw, hih⟩
                · simp only [List.mem_singleton] at hp2
                  subst hp2
                  refine ⟨⟨?_, ?_, ?_, ?_⟩, ?_, ?_⟩ <;> simp only <;> omega
              · intro h12
                obtain ⟨h1, h2⟩ := h12
                exact hnn ⟨by omega, by omega⟩

/-- Pixels already accumulated stay in the loop's output. -/
lemma growLoop_pixels_mem (W H maxSize : Nat) (brush : Int → Int → Bool)
    (shufR : Nat → Nat → Nat) (sx sy : Nat)
    (queue : List (Int × Int)) (visited : Nat × Nat → Bool)
    (pixels : List (Nat × Nat)) (mnX mnY mxX mxY : Int) (sc : Nat)
    (p : Nat × Nat) (hp : p ∈ pixels) :
    p ∈ (growLoop W H maxSize brush shufR sx sy queue visited pixels
      mnX mnY mxX mxY sc).pixels := by
  obtain ⟨t, hpre⟩ := (growLoop_inv W H maxSize brush shufR sx sy
    (8 * (maxSize - pixels.length) + queue.length) queue visited pixels
    mnX mnY mxX mxY sc _ (le_refl _) rfl).1
  rw [hpre]
  exact List.mem_append_left _ hp

/-- If the seed is in range, unvisited, the brush accepts the zero offset
and the size budget is positive, the grown region contains its seed. -/
lemma grow_seed_mem (W H maxSize : Nat) (brush : Int → Int → Bool)
    (shufR : Nat → Nat → Nat) (sx sy : Nat) (visited : Nat × Nat → Bool) (sc : Nat)
    (hms : 1 ≤ maxSize) (hxW : sx < W) (hyH : sy < H)
    (hv : visited (sx, sy) = false) (hb : brush 0 0 = true) :
    (sx, sy) ∈ (growLoop W H maxSize brush shufR sx sy [((sx : Int), (sy : Int))]
      visited [] (sx : Int) (sy : Int) (sx : Int) (sy : Int) sc).pixels := by
  rw [growLoop]
  rw [dif_neg (by simp; omega : ¬ maxSize ≤ ([] : List (Nat × Nat)).length)]
  rw [if_neg (by omega :
    ¬(((sx : Nat) : Int) < 0 ∨ (W : Int) ≤ ((sx : Nat) : Int) ∨
      ((sy : Nat) : Int) < 0 ∨ (H : Int) ≤ ((sy : Nat) : Int)))]
  rw [if_neg (by simp only [Int.toNat_natCast]; rw [hv]; simp :
    ¬ visited (((sx : Nat) : Int).toNat, ((sy : Nat) : Int).toNat) = true)]
  rw [if_neg (by simp only [sub_self]; rw [hb]; simp :
    ¬ ¬ brush (((sx : Nat) : Int) - (sx : Int)) (((sy : Nat) : Int) - (sy : Int)) = true)]
  dsimp only
  apply growLoop_pixels_mem
  simp

/-- Summary of `growOrganicRegion`: the returned visited map only grows,
and exactly by region pixels; every region pixel is marked; the bounding
box has a nonnegative corner and contains all region pixels, which are all
inside the image. -/
lemma growOrganicRegion_spec (W H : Nat) (brush : Int → Int → Bool)
    (shufR : Nat → Nat → Nat) (sx sy : Nat) (visited : Nat × Nat → Bool)
    (maxSize sc : Nat) :
    (∀ p, visited p = true →
      (growOrganicRegion W H brush shufR sx sy visited maxSize sc).2.1 p = true) ∧
    (∀ p, (growOrganicRegion W H brush shufR sx sy visited maxSize sc).2.1 p = true →
      visited p = true ∨
      p ∈ (growOrganicRegion W H brush shufR sx sy visited maxSize sc).1.pixels) ∧
    (∀ p ∈ (growOrganicRegion W H brush shufR sx sy visited maxSize sc).1.pixels,
      (growOrganicRegion W H brush shufR sx sy visited maxSize sc).2.1 p = true) ∧
    (0 ≤ (growOrganicRegion W H brush shufR sx sy visited maxSize sc).1.bounds.x ∧
     0 ≤ (growOrganicRegion W H brush shufR sx sy visited maxSize sc).1.bounds.y) ∧
    (∀ p ∈ (growOrganicRegion W H brush shufR sx sy visited maxSize sc).1.pixels,
      (growOrganicRegion W H brush shufR sx sy visited maxSize sc).1.bounds.x ≤ (p.1 : Int) ∧
      (p.1 : Int) < (growOrganicRegion W H brush shufR sx sy visited maxSize sc).1.bounds.x +
        (growOrganicRegion W H brush shufR sx sy visited maxSize sc).1.bounds.width ∧
      (growOrganicRegion W H brush shufR sx sy visited maxSize sc).1.bounds.y ≤ (p.2 : Int) ∧
      (p.2 : Int) < (growOrganicRegion W H brush shufR sx sy visited maxSize sc).1.bounds.y +
        (growOrganicRegion W H brush shufR sx sy visited maxSize sc).1.bounds.height ∧
      p.1 < W ∧ p.2 < H) := by
  obtain ⟨hpre, hmono, hframe, hmarks, hbounds, hnn⟩ := growLoop_inv W H maxSize brush shufR sx sy
    (8 * (maxSize - ([] : List (Nat × Nat)).length) +
      ([((sx : Int), (sy : Int))] : List (Int × Int)).length)
    [((sx : Int), (sy : Int))] visited [] (sx : Int) (sy : Int) (sx : Int) (sy : Int) sc
    _ (le_refl _) rfl
  have hB := hbounds (by intro p hp; cases hp)
  have hM := hmarks (by intro p hp; cases hp)
  have hN2 := hnn ⟨by omega, by omega⟩
  unfold growOrganicRegion
  dsimp only
  refine ⟨hmono, hframe, hM, ⟨hN2.1, hN2.2⟩, ?_⟩
  intro p hp
  obtain ⟨⟨b1, b2, b3, b4⟩, hiw, hih⟩ := hB p hp
  exact ⟨b1, by omega, b3, by omega, hiw, hih⟩

/-- Membership of the seed at the `growOrganicRegion` level. -/
lemma growOrganicRegion_seed_mem (W H : Nat) (brush : Int → Int → Bool)
    (shufR : Nat → Nat → Nat) (sx sy : Nat) (visited : Nat × Nat → Bool)
    (maxSize sc : Nat)
    (hms : 1 ≤ maxSize) (hxW : sx < W) (hyH : sy < H)
    (hv : visited (sx, sy) = false) (hb : brush 0 0 = true) :
    (sx, sy) ∈ (growOrganicRegion W H brush shufR sx sy visited maxSize sc).1.pixels := by
  unfold growOrganicRegion
  dsimp only
  exact grow_seed_mem W H maxSize brush shufR sx sy visited sc hms hxW hyH hv hb

/-- The copy fold of `createFragmentFromRegion` leaves positions nobody
writes to untouched. -/
lemma copyFold_untouched (img : Img) (b : Bounds) :
    ∀ (pixels : List (Nat × Nat)) (st : (Nat × Nat → RGBA) × ℚ) (d : Nat × Nat),
    (∀ q ∈ pixels,
      (((((q.1 : Int) - b.x).toNat, ((q.2 : Int) - b.y).toNat)) : Nat × Nat) ≠ d) →
    ((pixels.foldl
      (fun (st : (Nat × Nat → RGBA) × ℚ) p =>
        let src := img.data p
        let dx : Int := (p.1 : Int) - b.x
        let dy : Int := (p.2 : Int) - b.y
        let buf2 : Nat × Nat → RGBA :=
          if 0 ≤ dx ∧ dx < b.width ∧ 0 ≤ dy ∧ dy < b.height then
            fun q => if q = (dx.toNat, dy.toNat) then src else st.1 q
          else st.1
        (buf2, st.2 + lum src))
      st).1) d = st.1 d := by
  intro pixels
  induction pixels with
  | nil => intro st d _; rfl
  | cons r rest ih =>
    intro st d hno
    rw [List.foldl_cons]
    rw [ih _ d (fun q hq => hno q (List.mem_cons_of_mem r hq))]
    dsimp only
    by_cases hg : 0 ≤ (r.1 : Int) - b.x ∧ (r.1 : Int) - b.x < b.width ∧
        0 ≤ (r.2 : Int) - b.y ∧ (r.2 : Int) - b.y < b.height
    · rw [if_pos hg]
      rw [if_neg]
      intro hd
      exact hno r (List.mem_cons_self r rest) (by rw [hd])
    · rw [if_neg hg]

/-- The copy fold writes `img.data p` at `p`'s (in-range, unaliased)
destination. -/
lemma copyFold_at (img : Img) (b : Bounds) :
    ∀ (pixels : List (Nat × Nat)) (st : (Nat × Nat → RGBA) × ℚ) (p : Nat × Nat),
    p ∈ pixels →
    (∀ q ∈ pixels,
      ((((q.1 : Int) - b.x).toNat, ((q.2 : Int) - b.y).toNat) : Nat × Nat) =
        (((p.1 : Int) - b.x).toNat, ((p.2 : Int) - b.y).toNat) → q = p) →
    (0 ≤ (p.1 : Int) - b.x ∧ (p.1 : Int) - b.x < b.width ∧
      0 ≤ (p.2 : Int) - b.y ∧ (p.2 : Int) - b.y < b.height) →
    ((pixels.foldl
      (fun (st : (Nat × Nat → RGBA) × ℚ) p =>
        let src := img.data p
        let dx : Int := (p.1 : Int) - b.x
        let dy : Int := (p.2 : Int) - b.y
        let buf2 : Nat × Nat → RGBA :=
          if 0 ≤ dx ∧ dx < b.width ∧ 0 ≤ dy ∧ dy < b.height then
            fun q => if q = (dx.toNat, dy.toNat) then src else st.1 q
          else st.1
        (buf2, st.2 + lum src))
      st).1) (((p.1 : Int) - b.x).toNat, ((p.2 : Int) - b.y).toNat) = img.data p := by
  intro pixels
  induction pixels with
  | nil =>
    intro st p hp
    cases hp
  | cons r rest ih =>
    intro st p hp hinj hbox
    rw [List.foldl_cons]
    by_cases hpr : p ∈ rest
    · exact ih _ p hpr (fun q hq => hinj q (List.mem_cons_of_mem r hq)) hbox
    · have hpr2 : p = r := by
        rcases List.mem_cons.mp hp with h | h
        · exact h
        · exact absurd h hpr
      subst hpr2
      rw [copyFold_untouched img b rest _ _ ?hnone]
      case hnone =>
        intro q hq hd
        exact hpr (hinj q (List.mem_cons_of_mem p hq) hd ▸ hq)
      dsimp only
      rw [if_pos hbox]
      rw [if_pos rfl]

/-- For a region whose pixels sit inside its (nonnegative) bounds, the
materialized fragment exists and covers every region pixel whose source
alpha is nonzero. -/
lemma createFragmentFromRegion_covers (img : Img) (region : Region)
    (hb0 : 0 ≤ region.bounds.x ∧ 0 ≤ region.bounds.y)
    (hbnd : ∀ q ∈ region.pixels,
      region.bounds.x ≤ (q.1 : Int) ∧
      (q.1 : Int) < region.bounds.x + region.bounds.width ∧
      region.bounds.y ≤ (q.2 : Int) ∧
      (q.2 : Int) < region.bounds.y + region.bounds.height)
    (p : Nat × Nat) (hp : p ∈ region.pixels) (ha : (img.data p).a ≠ 0) :
    ∃ frag, createFragmentFromRegion img region = some frag ∧
      frag.covers p.1 p.2 = true := by
  cases hpix : region.pixels with
  | nil =>
    rw [hpix] at hp
    cases hp
  | cons a rest =>
    rw [hpix] at hp hbnd
    obtain ⟨hbp1, hbp2, hbp3, hbp4⟩ := hbnd p hp
    unfold createFragmentFromRegion
    rw [hpix]
    dsimp only
    refine ⟨_, rfl, ?_⟩
    simp only [Fragment.covers, Bool.and_eq_true, decide_eq_true_eq]
    refine ⟨⟨⟨⟨by omega, by omega⟩, by omega⟩, by omega⟩, ?_⟩
    have hidx : ((p.1 - region.bounds.x.toNat, p.2 - region.bounds.y.toNat) : Nat × Nat) =
        (((p.1 : Int) - region.bounds.x).toNat, ((p.2 : Int) - region.bounds.y).toNat) := by
      simp only [Prod.mk.injEq]
      omega
    rw [hidx]
    rw [copyFold_at img region.bounds (a :: rest) _ p hp ?inj ⟨by omega, by omega, by omega, by omega⟩]
    · exact ha
    case inj =>
      intro q hq hd
      obtain ⟨hbq1, hbq2, hbq3, hbq4⟩ := hbnd q hq
      simp only [Prod.mk.injEq] at hd
      obtain ⟨hd1, hd2⟩ := hd
      have hqp : q.1 = p.1 ∧ q.2 = p.2 := by omega
      exact Prod.ext hqp.1 hqp.2

/-- Raster-order cell enumeration hits exactly the in-range pixels. -/
lemma rasterCells_mem (W H : Nat) (c : Nat × Nat) :
    c ∈ rasterCells W H ↔ c.1 < W ∧ c.2 < H := by
  obtain ⟨cx, cy⟩ := c
  simp only [rasterCells, List.mem_flatMap, List.mem_map, List.mem_range, Prod.mk.injEq]
  constructor
  · rintro ⟨y, hy, x, hx, hxc, hyc⟩
    subst hxc; subst hyc
    exact ⟨hx, hy⟩
  · rintro ⟨hx, hy⟩
    exact ⟨cy, hy, cx, hx, rfl, rfl⟩

/-- A region with at least one pixel always materializes to a fragment. -/
lemma createFragmentFromRegion_ne_none (img : Img) (region : Region)
    (h : region.pixels ≠ []) : createFragmentFromRegion img region ≠ none := by
  cases hpix : region.pixels with
  | nil => exact absurd hpix h
  | cons a rest =>
    unfold createFragmentFromRegion
    rw [hpix]
    dsimp only
    intro hc
    exact Option.noConfusion hc

/-- Fill-pass fold invariant: provided each region reaches its seed
(`maxSize ≥ 1`, brush accepts the zero offset), every pixel the fold has
claimed whose source alpha is nonzero is covered by some accumulated
fragment; moreover claims only grow and every processed cell ends claimed. -/
lemma fillFold_covers (img : Img) (o : GenOracle) (maxSize : Nat)
    (hms : 1 ≤ maxSize) (hbr : ∀ k, o.brush k 0 0 = true) :
    ∀ (cells : List (Nat × Nat)) (st : GenSt),
    (∀ c ∈ cells, c.1 < img.width ∧ c.2 < img.height) →
    (∀ p : Nat × Nat, p.1 < img.width → p.2 < img.height →
      st.visited p = true → (img.data p).a ≠ 0 →
      coversPix st.frags p.1 p.2 = true) →
    (∀ p : Nat × Nat, p.1 < img.width → p.2 < img.height →
      (cells.foldl (fillStep img o maxSize) st).visited p = true →
      (img.data p).a ≠ 0 →
      coversPix (cells.foldl (fillStep img o maxSize) st).frags p.1 p.2 = true) ∧
    (∀ p, st.visited p = true →
      (cells.foldl (fillStep img o maxSize) st).visited p = true) ∧
    (∀ c ∈ cells, (cells.foldl (fillStep img o maxSize) st).visited c = true) := by
  intro cells
  induction cells with
  | nil =>
    intro st _ hinv
    exact ⟨hinv, fun p hp => hp, fun c hc => absurd hc (List.not_mem_nil c)⟩
  | cons c cells ih =>
    intro st hrange hinv
    obtain ⟨hcW, hcH⟩ := hrange c (List.mem_cons_self c cells)
    rw [List.foldl_cons]
    by_cases hvc : st.visited c = true
    · have hstep : fillStep img o maxSize st c = st := by
        unfold fillStep
        rw [if_pos hvc]
      rw [hstep]
      obtain ⟨h1, h2, h3⟩ := ih st (fun d hd => hrange d (List.mem_cons_of_mem c hd)) hinv
      exact ⟨h1, h2, fun d hd => by
        rcases List.mem_cons.mp hd with h | h
        · subst h; exact h2 d hvc
        · exact h3 d h⟩
    · have hvc' : st.visited c = false := by
        revert hvc; cases st.visited c <;> simp
      obtain ⟨hpre, hframe, hmarks, hb0, hbnd⟩ :=
        growOrganicRegion_spec img.width img.height (o.brush st.rc) o.shufR
          c.1 c.2 st.visited maxSize st.sc
      have hseed : (c.1, c.2) ∈ (growOrganicRegion img.width img.height (o.brush st.rc)
          o.shufR c.1 c.2 st.visited maxSize st.sc).1.pixels :=
        growOrganicRegion_seed_mem img.width img.height (o.brush st.rc) o.shufR
          c.1 c.2 st.visited maxSize st.sc hms hcW hcH hvc' (hbr st.rc)
      have hne : (growOrganicRegion img.width img.height (o.brush st.rc)
          o.shufR c.1 c.2 st.visited maxSize st.sc).1.pixels ≠ [] :=
        List.ne_nil_of_mem hseed
      cases hcf : createFragmentFromRegion img
          (growOrganicRegion img.width img.height (o.brush st.rc)
            o.shufR c.1 c.2 st.visited maxSize st.sc).1 with
      | none =>
        exact absurd hcf (createFragmentFromRegion_ne_none img _ hne)
      | some f =>
        have hstep : fillStep img o maxSize st c =
            ⟨st.frags ++ [f],
              (growOrganicRegion img.width img.height (o.brush st.rc)
                o.shufR c.1 c.2 st.visited maxSize st.sc).2.1,
              st.rc + 1,
              (growOrganicRegion img.width img.height (o.brush st.rc)
                o.shufR c.1 c.2 st.visited maxSize st.sc).2.2,
              st.jc⟩ := by
          unfold fillStep
          rw [if_neg (by rw [hvc']; exact Bool.false_ne_true)]
          dsimp only
          rw [if_pos (List.length_pos.mpr hne), hcf]
        rw [hstep]
        have hinv2 : ∀ p : Nat × Nat, p.1 < img.width → p.2 < img.height →
            (growOrganicRegion img.width img.height (o.brush st.rc)
              o.shufR c.1 c.2 st.visited maxSize st.sc).2.1 p = true →
            (img.data p).a ≠ 0 →
            coversPix (st.frags ++ [f]) p.1 p.2 = true := by
          intro p hpW hpH hv ha
          simp only [coversPix, List.any_append, Bool.or_eq_true, List.any_cons,
            List.any_nil, Bool.or_false]
          rcases hframe p hv with hold | hmem
          · exact Or.inl (by
              have := hinv p hpW hpH hold ha
              simpa only [coversPix] using this)
          · obtain ⟨frag, hsome, hcov⟩ :=
              createFragmentFromRegion_covers img _ hb0
                (fun q hq => ⟨(hbnd q hq).1, (hbnd q hq).2.1, (hbnd q hq).2.2.1,
                  (hbnd q hq).2.2.2.1⟩) p hmem ha
            rw [hcf] at hsome
            exact Or.inr (Option.some.inj hsome ▸ hcov)
        obtain ⟨h1, h2, h3⟩ := ih
          ⟨st.frags ++ [f],
            (growOrganicRegion img.width img.height (o.brush st.rc)
              o.shufR c.1 c.2 st.visited maxSize st.sc).2.1,
            st.rc + 1,
            (growOrganicRegion img.width img.height (o.brush st.rc)
              o.shufR c.1 c.2 st.visited maxSize st.sc).2.2,
            st.jc⟩
          (fun d hd => hrange d (List.mem_cons_of_mem c hd)) hinv2
        refine ⟨h1, fun p hp => h2 p (hpre p hp), fun d hd => ?_⟩
        rcases List.mem_cons.mp hd with h | h
        · subst h
          exact h2 d (hmarks (d.1, d.2) hseed)
        · exact h3 d h

/-- With `maxSize = 0` the grow loop stops on its first dequeue: the region
is empty, the visited map and shuffle counter untouched. -/
lemma growOrganicRegion_maxSize_zero (W H : Nat) (brush : Int → Int → Bool)
    (shufR : Nat → Nat → Nat) (sx sy : Nat) (visited : Nat × Nat → Bool)
    (sc : Nat) :
    (growOrganicRegion W H brush shufR sx sy visited 0 sc).1.pixels = [] ∧
    (growOrganicRegion W H brush shufR sx sy visited 0 sc).2.1 = visited ∧
    (growOrganicRegion W H brush shufR sx sy visited 0 sc).2.2 = sc := by
  unfold growOrganicRegion
  rw [growLoop]
  exact ⟨rfl, rfl, rfl⟩

/-- With `maxSize = 0` the fill pass accumulates no fragments. -/
lemma fillFold_frags_maxSize_zero (img : Img) (o : GenOracle) :
    ∀ (cells : List (Nat × Nat)) (st : GenSt),
    (cells.foldl (fillStep img o 0) st).frags = st.frags := by
  intro cells
  induction cells with
  | nil => intro st; rfl
  | cons c cells ih =>
    intro st
    rw [List.foldl_cons, ih]
    unfold fillStep
    by_cases hv : st.visited c = true
    · rw [if_pos hv]
    · rw [if_neg hv]
      dsimp only
      rw [(growOrganicRegion_maxSize_zero img.width img.height (o.brush st.rc)
        o.shufR c.1 c.2 st.visited st.sc).1]
      rw [if_neg (by simp)]

/-- With `maxSize = 0` and a positive `minSize` the seeded pass accumulates
no fragments either. -/
lemma seededFold_frags_maxSize_zero (img : Img) (o : GenOracle) (minSize : Nat)
    (hmin : 0 < minSize) :
    ∀ (cells : List (Nat × Nat)) (st : GenSt),
    (cells.foldl (seededStep img o minSize 0) st).frags = st.frags := by
  intro cells
  induction cells with
  | nil => intro st; rfl
  | cons c cells ih =>
    intro st
    rw [List.foldl_cons, ih]
    unfold seededStep
    dsimp only
    rw [(growOrganicRegion_maxSize_zero img.width img.height (o.brush st.rc)
      o.shufR _ _ st.visited st.sc).1]
    rw [if_neg (by simp; omega)]

/-- **C1 (counterexample)**: for a 4×4 opaque image the derived `maxSize`
is `⌊1.2 · 16/500⌋ = 0`, every grown region is empty, both passes accept
nothing, and pixel (0,0) — in range, fully opaque — is covered by no
fragment: the coverage invariant fails without a precondition on image
size. -/
theorem two_pass_coverage_fails_small_image :
    maxSizeOf (whiteImg 4 4) = 0 ∧
    0 < (whiteImg 4 4).width ∧ 0 < (whiteImg 4 4).height ∧
    ((whiteImg 4 4).data (0, 0)).a ≠ 0 ∧
    coversPix (twoPassFragments (whiteImg 4 4) oGen) 0 0 = false := by
  refine ⟨rfl, by decide, by decide, by decide, ?_⟩
  have hms : maxSizeOf (whiteImg 4 4) = 0 := rfl
  unfold twoPassFragments
  rw [hms]
  unfold fillPass seededPass
  rw [fillFold_frags_maxSize_zero, seededFold_frags_maxSize_zero]
  · rfl
  · decide

/-- **C1 (amended)**: coverage holds under the preconditions the code
actually needs: the derived `maxSize` must be at least 1 (total pixels ≥
417) so regions can hold their seed, the brush must accept the zero offset
(the source's elliptical stroke test always contains its own center), and
only pixels of nonzero alpha are covered (fully transparent source pixels
are never part of any fragment's visible area).  Then after the two passes
every in-range pixel with nonzero alpha is covered by at least one
fragment. -/
theorem two_pass_coverage (img : Img) (o : GenOracle)
    (hms : 1 ≤ maxSizeOf img)
    (hbr : ∀ k, o.brush k 0 0 = true)
    (x y : Nat) (hx : x < img.width) (hy : y < img.height)
    (ha : (img.data (x, y)).a ≠ 0) :
    coversPix (twoPassFragments img o) x y = true := by
  have hsv : (seededPass img o (minSizeOf img) (maxSizeOf img) (stepOf img)
      genInit).visited = genInit.visited :=
    seededFold_visited img o (minSizeOf img) (maxSizeOf img)
      (seedCells img.width img.height (stepOf img)) genInit
  obtain ⟨h1, h2, h3⟩ := fillFold_covers img o (maxSizeOf img) hms hbr
    (rasterCells img.width img.height)
    (seededPass img o (minSizeOf img) (maxSizeOf img) (stepOf img) genInit)
    (fun c hc => (rasterCells_mem img.width img.height c).mp hc)
    (fun p _ _ hv _ => absurd (hsv ▸ hv) (by simp [genInit]))
  exact h1 (x, y) hx hy
    (h3 (x, y) ((rasterCells_mem img.width img.height (x, y)).mpr ⟨hx, hy⟩)) ha

/-- Witness for C1's amended theorem: a 21×20 opaque image (420 pixels,
`maxSize = ⌊1.2 · 420/500⌋ = 1`) with the trivially-accepting oracle;
pixel (7, 9) is covered. -/
theorem two_pass_coverage_witness :
    1 ≤ maxSizeOf (whiteImg 21 20) ∧
    coversPix (twoPassFragments (whiteImg 21 20) oGen) 7 9 = true :=
  ⟨by decide,
   two_pass_coverage (whiteImg 21 20) oGen (by decide) (fun k => rfl) 7 9
     (by decide) (by decide) (by decide)⟩
